import Mathlib

/-!
# Verification of the GANTT/PERT scheduling engine

A shallow embedding of the scheduling core of the `gantt-pert-visualizer`
repository (files `src/lib/types.ts`, `src/lib/pert.ts`, `src/lib/gantt.ts`,
`src/lib/utils.ts`), together with proofs about it.

Conventions of the embedding:
* JavaScript numbers are modelled as `Int`.  All inputs the engine accepts
  carry integer day counts, and every arithmetic operation performed by the
  engine (`+`, `-`, `Math.max`, `Math.min`) is exact on integers.
* JavaScript objects with optional fields (`earliestStart?: number` …) are
  modelled as structures with `Option` fields.
* The JS falsy coalescing `x || d` (which replaces both `undefined` and `0`
  by `d`) is modelled by `jsOr`; the nullish coalescing `x ?? d` (which
  replaces only `undefined`) is modelled by `Option.getD`.
* `Map` objects keyed by task id are modelled by lookup over the task list.
  The engine's validity preconditions make ids unique, under which the
  modelled lookup agrees with the JS `Map` (set twice = last wins).
* `throw` is modelled by `Except`.
-/

namespace GanttPert

/-- The `Task` record of `src/lib/types.ts`: input fields `id`, `name`,
`duration`, `predecessors`, plus the optional computed fields that the
engine fills in (`earliestStart`, `earliestFinish`, `latestStart`,
`latestFinish`, `slack`, `isCritical`, `start`, `end`).  The TS field `end`
is called `endT` here because `end` is a Lean keyword; `color` is omitted
(never read or written by the PERT engine under verification). -/
structure Task where
  id : String
  name : String
  duration : Int
  predecessors : List String
  earliestStart : Option Int := none
  earliestFinish : Option Int := none
  latestStart : Option Int := none
  latestFinish : Option Int := none
  slack : Option Int := none
  isCritical : Option Bool := none
  start : Option Int := none
  endT : Option Int := none
  deriving Repr, DecidableEq

/-- The `DiagramData` record of `src/lib/types.ts`. -/
structure DiagramData where
  tasks : List Task
  criticalPath : List String
  projectDuration : Int
  deriving Repr, DecidableEq

instance {ε α : Type} [DecidableEq ε] [DecidableEq α] : DecidableEq (Except ε α) := fun a b =>
  match a, b with
  | .error e, .error f =>
    if h : e = f then .isTrue (by rw [h]) else .isFalse (fun hh => h (by injection hh))
  | .ok x, .ok y =>
    if h : x = y then .isTrue (by rw [h]) else .isFalse (fun hh => h (by injection hh))
  | .error _, .ok _ => .isFalse (fun hh => Except.noConfusion hh)
  | .ok _, .error _ => .isFalse (fun hh => Except.noConfusion hh)

/-- JS `x || d` on an optional number: `undefined` and `0` are falsy. -/
def jsOr (o : Option Int) (d : Int) : Int :=
  match o with
  | none => d
  | some v => if v = 0 then d else v

/-- JS `Math.max(...l)` for a list known to be non-empty at every call site
(the engine only spreads non-empty lists); the `[]` value is junk. -/
def jsMax : List Int → Int
  | [] => 0
  | x :: xs => xs.foldl max x

/-- JS `Math.min(...l)` for a non-empty list; the `[]` value is junk. -/
def jsMin : List Int → Int
  | [] => 0
  | x :: xs => xs.foldl min x

/-- Lookup in a JS `Map` built by `tasks.forEach(t => m.set(t.id, t))`:
setting the same key twice keeps the last value, hence the reverse search. -/
def mapGet (tasks : List Task) (i : String) : Option Task :=
  tasks.reverse.find? (fun t => t.id == i)

namespace Pert
/-!
## `src/lib/pert.ts` — final version (« VERSION ENTIÈREMENT CORRIGÉE »)

The engine actually exported by `src/lib/pert.ts`:
`topologicalSortCorrect` (Kahn), `calculateForwardPass`,
`calculateBackwardPass`, `calculateSlackAndCriticalPath`,
`calculatePertData`.
-/

/-- Model of `taskMap.has p` for the map holding every task keyed by id. -/
def hasId (tasks : List Task) (p : String) : Bool :=
  tasks.any (fun t => t.id == p)

/-- The in-degree map built by `topologicalSortCorrect`: starting from `0`,
each task contributes `1` to `inDegree[task.id]` for every entry of
`task.predecessors` that is a key of `taskMap` (duplicated predecessor
entries count once each, exactly as the JS loop does).  Modelled as the
total count, summed over the tasks carrying the id. -/
def inDeg0 (tasks : List Task) (i : String) : Int :=
  ((tasks.map (fun t =>
    if t.id == i then (t.predecessors.filter (hasId tasks)).length else 0)).sum : Nat)

/-- Model of `adjList.get c`: one entry `t.id` per occurrence of `c` in
`t.predecessors`, in task-list order (only queried at ids `c` that are keys,
which is where the JS map has an entry). -/
def adjOf (tasks : List Task) (c : String) : List String :=
  tasks.flatMap (fun t => (t.predecessors.filter (fun p => p == c)).map (fun _ => t.id))

/-- Pointwise update of an in-degree map. -/
def fupd (f : String → Int) (s : String) (d : Int) : String → Int :=
  fun j => if j == s then d else f j

/-- The inner `forEach` of Kahn's loop: for each successor occurrence,
decrement its in-degree and enqueue it if the new degree is `0`. -/
def kahnRelax : List String → (String → Int) → List String → (String → Int) × List String
  | [], indeg, queue => (indeg, queue)
  | s :: rest, indeg, queue =>
    let d := indeg s - 1
    kahnRelax rest (fupd indeg s d) (if d = 0 then queue ++ [s] else queue)

/-- The `while (queue.length > 0)` loop of `topologicalSortCorrect`.  Each
iteration dequeues one id, appends the corresponding task to the result and
relaxes its successors.  An id is enqueued at most once (its degree reaches
`0` at most once), so the loop runs at most `tasks.length` iterations; the
fuel `tasks.length` therefore makes the model agree with the unbounded JS
loop.  The `none` branch of the lookup is unreachable (the queue only ever
holds task ids), mirroring the JS non-null assertion `taskMap.get(id)!`. -/
def kahnLoop (tasks : List Task) : Nat → List String → (String → Int) → List Task → List Task
  | 0, _, _, result => result
  | _ + 1, [], _, result => result
  | fuel + 1, c :: q, indeg, result =>
    match mapGet tasks c with
    | none => kahnLoop tasks fuel q indeg result
    | some current =>
      let st := kahnRelax (adjOf tasks c) indeg q
      kahnLoop tasks fuel st.2 st.1 (result ++ [current])

/-- Model of `topologicalSortCorrect` (pert.ts, `TRI TOPOLOGIQUE CORRECT`): Kahn's
algorithm; throws `Cycle détecté …` when the emitted count falls short. -/
def topologicalSortCorrect (tasks : List Task) : Except String (List Task) :=
  let ids := tasks.map (·.id)
  let result := kahnLoop tasks tasks.length
    (ids.filter (fun i => inDeg0 tasks i == 0)) (inDeg0 tasks) []
  if result.length = tasks.length then .ok result
  else .error "Cycle detecte dans les dependances des taches"

/-- The `earliestStart` computed for `t` against the heap of current task
states: `0` without predecessors, otherwise
`Math.max(...predecessors.map(p => taskMap.get(p)?.earliestFinish || 0))`
(a predecessor missing from the map contributes `0`, matching the JS
`pred ? (pred.earliestFinish || 0) : 0`). -/
def fwdEs (heap : List Task) (t : Task) : Int :=
  if t.predecessors.isEmpty then 0
  else jsMax (t.predecessors.map (fun p =>
    match mapGet heap p with
    | some pred => jsOr pred.earliestFinish 0
    | none => 0))

/-- The forward-pass `forEach`: `done` holds the already-processed tasks
(the in-place mutations so far), the tail is untouched; the heap the lookups
see is `done ++ t :: todo`.  `earliestFinish = earliestStart + duration`
(the JS read-back `task.earliestStart || 0` equals the value just assigned,
`0 || 0` being `0`). -/
def forwardGo : List Task → List Task → List Task
  | done, [] => done
  | done, t :: todo =>
    let es := fwdEs (done ++ t :: todo) t
    forwardGo
      (done ++ [{ t with earliestStart := some es,
                         earliestFinish := some (es + t.duration) }]) todo

/-- Model of `calculateForwardPass` (pert.ts, `FORWARD PASS`). -/
def calculateForwardPass (tasks : List Task) : List Task :=
  forwardGo [] tasks

/-- Model of `successorsMap.get c` of the backward pass: one entry `t.id` per
occurrence of `c` in `t.predecessors` whose key exists (queried only at task
ids, where the map always has an entry). -/
def succsOf (tasks : List Task) (c : String) : List String :=
  tasks.flatMap (fun t => (t.predecessors.filter (fun p => p == c)).map (fun _ => t.id))

/-- The `latestFinish` computed for `t` against the heap of current task
states: `projectEnd` without successors, otherwise
`Math.min(...successors.map(s => taskMap.get(s)?.latestStart || projectEnd))`
(JS falsy: a stored `latestStart` of `0` is also replaced by `projectEnd`). -/
def bwdLf (heap : List Task) (projectEnd : Int) (succList : List String) : Int :=
  if succList.isEmpty then projectEnd
  else jsMin (succList.map (fun s =>
    match mapGet heap s with
    | some succ => jsOr succ.latestStart projectEnd
    | none => projectEnd))

/-- The backward-pass loop over the reversed task list: the first argument
is the reversed remainder (head = the latest still-unprocessed task in list
order), `done` the already-processed suffix in original order; the heap seen
by `taskMap.get` is `rem.reverse ++ done`.
`latestStart = latestFinish - duration` (`lf || 0` equals `lf` here, `0 || 0`
being `0`). -/
def backwardGo (projectEnd : Int) (succs : String → List String) :
    List Task → List Task → List Task
  | [], done => done
  | t :: rem, done =>
    let lf := bwdLf ((t :: rem).reverse ++ done) projectEnd (succs t.id)
    backwardGo projectEnd succs rem
      ({ t with latestFinish := some lf, latestStart := some (lf - t.duration) } :: done)

/-- Model of `calculateBackwardPass` (pert.ts, `BACKWARD PASS`):
`projectEnd = Math.max(...tasks.map(t => t.earliestFinish || 0))`, then the
reversed in-place loop. -/
def calculateBackwardPass (tasks : List Task) : List Task :=
  let projectEnd := jsMax (tasks.map (fun t => jsOr t.earliestFinish 0))
  backwardGo projectEnd (succsOf tasks) tasks.reverse []

/-- Model of `calculateSlackAndCriticalPath` (pert.ts, `CALCUL DES MARGES ET CHEMIN
CRITIQUE`): `slack = (latestStart || 0) - (earliestStart || 0)`;
`isCritical = Math.abs(slack || 0) < 0.001`, written here as
`1000 * |slack| < 1` to keep the arithmetic exact (`slack` is an integer, so
the comparison is exact); `start`/`end` mirror the earliest dates. -/
def calculateSlackAndCriticalPath (tasks : List Task) : List Task :=
  tasks.map (fun t =>
    let slack := jsOr t.latestStart 0 - jsOr t.earliestStart 0
    { t with slack := some slack,
             isCritical := some (decide (1000 * (jsOr (some slack) 0).natAbs < 1)),
             start := t.earliestStart,
             endT := t.earliestFinish })

/-- Model of `calculatePertData` (pert.ts line 946): deep-copies the input (pure
values here), topologically sorts, runs both passes and the slack pass,
takes `projectDuration = Math.max(...earliestFinish || 0)` and
`criticalPath` = ids of the critical tasks in sorted order. -/
def calculatePertData (tasks : List Task) : Except String DiagramData :=
  match topologicalSortCorrect tasks with
  | .error e => .error e
  | .ok sorted =>
    let t1 := calculateForwardPass sorted
    let t2 := calculateBackwardPass t1
    let t3 := calculateSlackAndCriticalPath t2
    let projectDuration := jsMax (t3.map (fun t => jsOr t.earliestFinish 0))
    let criticalPath := (t3.filter (fun t => t.isCritical == some true)).map (·.id)
    .ok { tasks := t3, criticalPath := criticalPath, projectDuration := projectDuration }

end Pert

/-- Validation problems, shared by the validators of `pert.ts` (refactored
version, line 418) and `utils.ts` (line 95).  The JS validators collect
human-readable strings; the embedding keeps the structured content of each
message (the interpolated id / index).  The `typeof`-checks of the source
are vacuous in the typed model and the `Array.isArray(predecessors)` check
can never fire, so no constructor corresponds to them. -/
inductive VErr where
  | missingId (index : Nat)
  | dupId (id : String)
  | badName (id : String)
  | badDuration (id : String)
  | emptyList
  | dangling (taskId predId : String)
  | selfRef (taskId : String)
  | cycle
  deriving Repr, DecidableEq

/-- The structural `forEach` loop shared verbatim by both validators:
a falsy (empty) id, a duplicated id, a falsy (empty) name, and
`duration <= 0` each push one error; `seen` is the `taskIds` set in
insertion order. -/
def structuralErrs : List Task → Nat → List String → List VErr
  | [], _, _ => []
  | t :: rest, idx, seen =>
    let idErr : List VErr :=
      if t.id = "" then [.missingId idx]
      else if seen.contains t.id then [.dupId t.id] else []
    let seen2 :=
      if t.id = "" then seen
      else if seen.contains t.id then seen else seen ++ [t.id]
    let nameErr : List VErr := if t.name = "" then [.badName t.id] else []
    let durErr : List VErr := if t.duration ≤ 0 then [.badDuration t.id] else []
    idErr ++ nameErr ++ durErr ++ structuralErrs rest (idx + 1) seen2

/-- The final contents of the `taskIds` set after the structural loop. -/
def seenIds : List Task → List String → List String
  | [], seen => seen
  | t :: rest, seen =>
    seenIds rest
      (if t.id = "" then seen
       else if seen.contains t.id then seen else seen ++ [t.id])

namespace PertR
/-!
## `src/lib/pert.ts` — refactored version (« VERSION OPTIMISÉE ET REFACTORISÉE »)

The `PertCalculator` class and its `calculatePertData` entry point
(concatenated file lines 1–497).  This variant validates shapes first,
sorts with Kahn's algorithm whose cycle error lists the leftover task ids,
and — unlike the final version — runs the passes directly on the caller's
task objects (no deep copy).
-/

/-- Model of `validateTasks` of the refactored file (line 418): the structural loop
only; throws when any error was collected. -/
def validateTasks (tasks : List Task) : List VErr :=
  structuralErrs tasks 0 []

/-- The in-degree seeding of `PertCalculator.topologicalSort`:
`predecessorsMap.get(id).length`, the *unguarded* predecessor count (dangling
predecessor ids are counted, unlike the final version).  Modelled for the
unique-id inputs the validator accepts (JS `Map` keeps the last binding). -/
def inDegR (tasks : List Task) (i : String) : Int :=
  match mapGet tasks i with
  | some t => (t.predecessors.length : Int)
  | none => 0

/-- Model of `PertCalculator.topologicalSort` (line 66): Kahn's algorithm over the
guarded successor map (same relaxation loop as the final version), but with
the unguarded in-degree seeding, and a cycle error that carries
`remainingTasks`, the ids left out of the result. -/
def topologicalSort (tasks : List Task) : Except (List String) (List Task) :=
  let ids := tasks.map (·.id)
  let result := Pert.kahnLoop tasks tasks.length
    (ids.filter (fun i => inDegR tasks i == 0)) (inDegR tasks) []
  if result.length = tasks.length then .ok result
  else .error (ids.filter (fun i => !(result.any (fun t => t.id == i))))

/-- One step of `PertCalculator.calculateForwardPass` (line 112): like the
final version but with nullish coalescing `pred?.earliestFinish ?? 0`
(a stored `0` stays `0`), and `earliestFinish = earliestStart + duration`. -/
def forwardGo : List Task → List Task → List Task
  | done, [] => done
  | done, t :: todo =>
    let heap := done ++ t :: todo
    let es : Int :=
      if t.predecessors.isEmpty then 0
      else jsMax (t.predecessors.map (fun p =>
        match mapGet heap p with
        | some pred => pred.earliestFinish.getD 0
        | none => 0))
    let t2 := { t with earliestStart := some es, earliestFinish := some (es + t.duration) }
    forwardGo (done ++ [t2]) todo

/-- One step of `PertCalculator.calculateBackwardPass` (line 134), with
nullish coalescing `succ?.latestStart ?? projectEnd`. -/
def backwardGo (projectEnd : Int) (succs : String → List String) :
    List Task → List Task → List Task
  | [], done => done
  | t :: rem, done =>
    let heap := (t :: rem).reverse ++ done
    let lf : Int :=
      if (succs t.id).isEmpty then projectEnd
      else jsMin ((succs t.id).map (fun s =>
        match mapGet heap s with
        | some succ => succ.latestStart.getD projectEnd
        | none => projectEnd))
    let t2 := { t with latestFinish := some lf, latestStart := some (lf - t.duration) }
    backwardGo projectEnd succs rem (t2 :: done)

/-- Model of `PertCalculator.calculateBackwardPass` (line 134):
`projectEnd = Math.max(...map(t.earliestFinish ?? 0))`. -/
def calculateBackwardPass (tasks : List Task) : List Task :=
  let projectEnd := jsMax (tasks.map (fun t => t.earliestFinish.getD 0))
  backwardGo projectEnd (Pert.succsOf tasks) tasks.reverse []

/-- Model of `PertCalculator.calculateSlackAndCriticalPath` (line 159):
`slack = (latestStart ?? 0) - (earliestStart ?? 0)`,
`isCritical = Math.abs(slack) < toleranceSlack` with the default tolerance
`0.001` (scaled to the exact integer comparison `1000·|slack| < 1`). -/
def slackPass (tasks : List Task) : List Task :=
  tasks.map (fun t =>
    let slack := t.latestStart.getD 0 - t.earliestStart.getD 0
    { t with slack := some slack,
             isCritical := some (decide (1000 * slack.natAbs < 1)),
             start := t.earliestStart,
             endT := t.earliestFinish })

/-- Stable insertion sort: `Array.prototype.sort` is stable (ES2019), and
`orderCriticalPath` sorts with the comparator
`(a.earliestStart ?? 0) - (b.earliestStart ?? 0)`. -/
def sinsert (le : Task → Task → Bool) (x : Task) : List Task → List Task
  | [] => [x]
  | y :: ys => if le x y then x :: y :: ys else y :: sinsert le x ys

/-- Stable sort by the given strict-or-equal key comparison. -/
def ssort (le : Task → Task → Bool) : List Task → List Task
  | [] => []
  | x :: xs => sinsert le x (ssort le xs)

/-- Model of `PertCalculator.orderCriticalPath` (line 185): keep the critical tasks,
sort them by `earliestStart` ascending (stably — no further tie-break) and
return their ids. -/
def orderCriticalPath (criticalTaskIds : List String) (tasks : List Task) : List String :=
  (ssort (fun a b => a.earliestStart.getD 0 ≤ b.earliestStart.getD 0)
    (tasks.filter (fun t => criticalTaskIds.contains t.id))).map (·.id)

/-- Errors of the refactored `calculatePertData` (line 299): empty input,
aggregate validation failure, or the cycle error of the sorter (whose
message lists the leftover ids).  The `catch` wrapper only re-labels the
message text. -/
inductive RErr where
  | empty
  | validation (errs : List VErr)
  | cycle (remaining : List String)
  deriving Repr, DecidableEq

/-- Model of `calculatePertData` of the refactored file (line 299): reject empty
input, validate shapes, then run the calculator *in place on the caller's
tasks*: sort, forward pass, backward pass, slack pass; collect the critical
ids in sorted order and order them chronologically. -/
def calculatePertData (tasks : List Task) : Except RErr DiagramData :=
  if tasks.isEmpty then .error .empty
  else
    let errs := validateTasks tasks
    if errs.isEmpty then
      match topologicalSort tasks with
      | .error remaining => .error (.cycle remaining)
      | .ok sorted =>
        let t1 := forwardGo [] sorted
        let t2 := calculateBackwardPass t1
        let t3 := slackPass t2
        let criticalIds := (t3.filter (fun t => t.isCritical == some true)).map (·.id)
        let criticalPath := orderCriticalPath criticalIds t3
        let projectDuration := jsMax (t3.map (fun t => t.earliestFinish.getD 0))
        .ok { tasks := t3, criticalPath := criticalPath, projectDuration := projectDuration }
    else .error (.validation errs)

/-- Caller-visible state of the input array after the refactored
`calculatePertData` returns.  The refactored pipeline hands the caller's
array directly to `PertCalculator` (line 312) and the passes assign
`task.earliestStart`, … on those shared objects, so on success every caller
object carries its annotated record (the array itself is not reordered);
both error paths (validation, cycle) throw before any field is assigned, so
the caller's objects are then untouched. -/
def callerTasksAfter (tasks : List Task) : List Task :=
  match calculatePertData tasks with
  | .ok d => tasks.map (fun t => (d.tasks.find? (fun u => u.id == t.id)).getD t)
  | .error _ => tasks

end PertR

namespace Utils
/-!
## `src/lib/utils.ts`

`validateTasks` (line 95) and `detectCycles` (line 161): the validator used
by the application page before any schedule is computed
(`src/app/page.tsx` returns early on `!validation.isValid`).
-/

/-- Result record of `utils.validateTasks`. -/
structure ValidationOutcome where
  valid : Bool
  errors : List VErr
  deriving Repr, DecidableEq

/-- The recursive `hasCycle` of `detectCycles`: DFS over the predecessor
relation with a persistent `visited` set (threaded through and returned)
and a call-path `recStack` (passed downward).  The recursion depth of the
JS function is bounded by the number of tasks plus one (each recursive call
enters an unvisited task), so fuel `tasks.length + 1` reproduces it. -/
def hasCycle (tasks : List Task) : Nat → String → List String → List String → Bool × List String
  | 0, _, visited, _ => (false, visited)
  | fuel + 1, i, visited, stack =>
    if stack.contains i then (true, visited)
    else if visited.contains i then (false, visited)
    else
      let visited2 := visited ++ [i]
      match mapGet tasks i with
      | none => (false, visited2)
      | some t =>
        t.predecessors.foldl (fun acc p =>
          if acc.1 then acc
          else hasCycle tasks fuel p acc.2 (stack ++ [i])) (false, visited2)

/-- The `for (const task of tasks)` driver of `detectCycles` (line 186),
sharing `visited` across iterations. -/
def detectGo (tasks : List Task) : List Task → List String → Option VErr
  | [], _ => none
  | t :: rest, visited =>
    let r := hasCycle tasks (tasks.length + 1) t.id visited []
    if r.1 then some .cycle else detectGo tasks rest r.2

/-- Model of `detectCycles` (utils.ts line 161). -/
def detectCycles (tasks : List Task) : Option VErr :=
  detectGo tasks tasks []

/-- Model of `validateTasks` (utils.ts line 95): empty-list check, the structural
loop (1-based indices in its messages), the referential loop (dangling
predecessor, self-reference — both per predecessor entry), and, only when
no error was found so far, cycle detection.  `valid` iff no error. -/
def validateTasks (tasks : List Task) : ValidationOutcome :=
  if tasks.isEmpty then { valid := false, errors := [.emptyList] }
  else
    let structural := structuralErrs tasks 0 []
    let taskIds := seenIds tasks []
    let refErrs := tasks.flatMap (fun t =>
      t.predecessors.flatMap (fun p =>
        (if taskIds.contains p then [] else [VErr.dangling t.id p]) ++
        (if p == t.id then [VErr.selfRef t.id] else [])))
    let errs := structural ++ refErrs
    let errs2 :=
      if errs.isEmpty then
        match detectCycles tasks with
        | some e => errs ++ [e]
        | none => errs
      else errs
    { valid := errs2.isEmpty, errors := errs2 }

end Utils

/-- Caller-visible state of the input array after `calculatePertData` of the
final `src/lib/pert.ts` returns: its first statement deep-copies the array
(`JSON.parse(JSON.stringify(tasks))`, line 947) and every later write
targets the copy, so the caller's objects are never written. -/
def callerTasksAfterPert (tasks : List Task) : List Task := tasks

/-- Caller-visible state of the input array after `calculateGanttData`
(`src/lib/gantt.ts` line 8) returns: it likewise deep-copies the array
(line 10) before the topological sort and the date computations, so the
caller's objects are never written. -/
def callerTasksAfterGantt (tasks : List Task) : List Task := tasks

/-- Convenience: the task of a result with the given id. -/
def taskIn (d : DiagramData) (i : String) : Option Task :=
  d.tasks.find? (fun t => t.id == i)

/-- A task record carrying only the input fields; used to state that the
engine preserves `id`, `name`, `duration` and `predecessors`. -/
structure TaskCore where
  id : String
  name : String
  duration : Int
  predecessors : List String
  deriving Repr, DecidableEq

/-- The input fields of a task. -/
def Task.core (t : Task) : TaskCore :=
  { id := t.id, name := t.name, duration := t.duration, predecessors := t.predecessors }

/-- Predicate `PredsClosed done l`: walking `l` from the front, every predecessor id
of every task is among `done` plus the ids of the earlier tasks.
`PredsClosed [] l` says `l` is topologically sorted: every task appears
after all of its predecessors. -/
def PredsClosed : List String → List Task → Prop
  | _, [] => True
  | done, t :: rest =>
    (∀ p ∈ t.predecessors, p ∈ done) ∧ PredsClosed (done ++ [t.id]) rest

instance instDecPredsClosed : (done : List String) → (l : List Task) → Decidable (PredsClosed done l)
  | _, [] => .isTrue trivial
  | done, t :: rest =>
    have : Decidable (PredsClosed (done ++ [t.id]) rest) := instDecPredsClosed _ rest
    inferInstanceAs (Decidable ((∀ p ∈ t.predecessors, p ∈ done) ∧ PredsClosed (done ++ [t.id]) rest))

/-- Every predecessor id refers to some task of the set. -/
def RefSound (tasks : List Task) : Prop :=
  ∀ t ∈ tasks, ∀ p ∈ t.predecessors, p ∈ tasks.map (·.id)

instance instDecidableRefSound (tasks : List Task) : Decidable (RefSound tasks) :=
  inferInstanceAs (Decidable (∀ t ∈ tasks, ∀ p ∈ t.predecessors, p ∈ tasks.map Task.id))

/-- A valid engine input in the sense of the specification: non-empty,
pairwise-distinct ids, referentially sound, and acyclic (witnessed by the
existence of a topological arrangement of the task set). -/
def ValidInput (tasks : List Task) : Prop :=
  tasks ≠ [] ∧ (tasks.map (·.id)).Nodup ∧ RefSound tasks ∧
    ∃ w : List Task, w.Perm tasks ∧ PredsClosed [] w

/-- The `earliestStart` recorded for id `i` in a result. -/
def esIn (d : DiagramData) (i : String) : Option Int :=
  (d.tasks.find? (fun t => t.id == i)).bind (·.earliestStart)

/-- Modelled from the spec's words (§4.5), for comparison with the code:
the critical path is "sorted primarily by `earliestStart` ascending; among
equal `earliestStart`, break ties by task ID". -/
def specCriticalPathOrdered (d : DiagramData) : Prop :=
  d.criticalPath.Pairwise (fun i j =>
    (esIn d i).getD 0 < (esIn d j).getD 0 ∨
      ((esIn d i).getD 0 = (esIn d j).getD 0 ∧ i < j))

instance (d : DiagramData) : Decidable (specCriticalPathOrdered d) := by
  unfold specCriticalPathOrdered
  infer_instance

/-! ## Basic lemmas about the JS helpers -/

theorem jsOr_some_zero (v : Int) : jsOr (some v) 0 = v := by
  by_cases h : v = 0 <;> simp [jsOr, h]

theorem jsOr_some_cases (v d : Int) : jsOr (some v) d = v ∨ jsOr (some v) d = d := by
  by_cases h : v = 0 <;> simp [jsOr, h]

theorem foldl_max_init (xs : List Int) (init : Int) : init ≤ xs.foldl max init := by
  induction xs generalizing init with
  | nil => exact le_refl _
  | cons y ys ih => exact le_trans (le_max_left init y) (ih (max init y))

theorem foldl_max_mem {a : Int} (xs : List Int) (init : Int) (h : a ∈ xs) :
    a ≤ xs.foldl max init := by
  induction xs generalizing init with
  | nil => cases h
  | cons y ys ih =>
    rcases List.mem_cons.mp h with rfl | h'
    · exact le_trans (le_max_right init a) (foldl_max_init ys _)
    · exact ih _ h'

theorem le_jsMax_of_mem {a : Int} {l : List Int} (h : a ∈ l) : a ≤ jsMax l := by
  cases l with
  | nil => cases h
  | cons x xs =>
    rcases List.mem_cons.mp h with rfl | h'
    · exact foldl_max_init xs a
    · exact foldl_max_mem xs x h'

theorem foldl_min_le {b : Int} (xs : List Int) (init : Int)
    (h0 : b ≤ init) (h : ∀ a ∈ xs, b ≤ a) : b ≤ xs.foldl min init := by
  induction xs generalizing init with
  | nil => exact h0
  | cons y ys ih =>
    exact ih _ (le_min h0 (h y (List.mem_cons_self _ _)))
      (fun a ha => h a (List.mem_cons_of_mem _ ha))

theorem le_jsMin {b : Int} {l : List Int} (hne : l ≠ []) (h : ∀ a ∈ l, b ≤ a) :
    b ≤ jsMin l := by
  cases l with
  | nil => exact absurd rfl hne
  | cons x xs =>
    exact foldl_min_le xs x (h x (List.mem_cons_self _ _))
      (fun a ha => h a (List.mem_cons_of_mem _ ha))

/-! ## Lemmas about `mapGet` under unique ids -/

theorem find?_id_eq_some {l : List Task} {t : Task}
    (hnd : (l.map (·.id)).Nodup) (ht : t ∈ l) :
    l.find? (fun u => u.id == t.id) = some t := by
  induction l with
  | nil => cases ht
  | cons u rest ih =>
    rcases List.mem_cons.mp ht with rfl | h'
    · simp [List.find?]
    · have hne : ¬ (u.id == t.id) = true := by
        simp only [List.map, List.nodup_cons] at hnd
        intro hb
        exact hnd.1 (by
          rw [beq_iff_eq] at hb
          rw [hb]
          exact List.mem_map_of_mem (·.id) h')
      simp only [List.find?, hne]
      exact ih (by simp only [List.map, List.nodup_cons] at hnd; exact hnd.2) h'

theorem mapGet_eq_some {l : List Task} {t : Task}
    (hnd : (l.map (·.id)).Nodup) (ht : t ∈ l) :
    mapGet l t.id = some t := by
  unfold mapGet
  have hnd' : (l.reverse.map (·.id)).Nodup := by
    rw [List.map_reverse]
    exact List.nodup_reverse.mpr hnd
  exact find?_id_eq_some hnd' (List.mem_reverse.mpr ht)

theorem mapGet_mem {l : List Task} {i : String} {t : Task}
    (h : mapGet l i = some t) : t ∈ l ∧ t.id = i := by
  unfold mapGet at h
  refine ⟨List.mem_reverse.mp (List.mem_of_find?_eq_some h), ?_⟩
  have := List.find?_some h
  rwa [beq_iff_eq] at this

/-! ## Lemmas about `PredsClosed` -/

theorem predsClosed_mono {d d' : List String} {l : List Task}
    (hsub : ∀ x ∈ d, x ∈ d') (h : PredsClosed d l) : PredsClosed d' l := by
  induction l generalizing d d' with
  | nil => trivial
  | cons t rest ih =>
    obtain ⟨h1, h2⟩ := h
    refine ⟨fun p hp => hsub p (h1 p hp), ih ?_ h2⟩
    intro x hx
    rcases List.mem_append.mp hx with hx' | hx'
    · exact List.mem_append.mpr (Or.inl (hsub x hx'))
    · exact List.mem_append.mpr (Or.inr hx')

theorem predsClosed_append {d : List String} {x y : List Task} :
    PredsClosed d (x ++ y) ↔ PredsClosed d x ∧ PredsClosed (d ++ x.map (·.id)) y := by
  induction x generalizing d with
  | nil => simp [PredsClosed]
  | cons t rest ih =>
    simp only [List.cons_append, PredsClosed, List.append_eq, ih, List.map_cons,
      List.append_assoc, List.singleton_append, List.nil_append, and_assoc]

/-- The key/projection a task contributes to `PredsClosed`. -/
def Task.gkey (t : Task) : String × List String := (t.id, t.predecessors)

theorem predsClosed_of_gkeys {d : List String} {l l' : List Task}
    (h : l.map Task.gkey = l'.map Task.gkey) (hp : PredsClosed d l) : PredsClosed d l' := by
  induction l generalizing l' d with
  | nil =>
    cases l' with
    | nil => trivial
    | cons _ _ => simp at h
  | cons t rest ih =>
    cases l' with
    | nil => simp at h
    | cons u rest' =>
      simp only [List.map_cons, List.cons.injEq] at h
      obtain ⟨hk, hrest⟩ := h
      have hid : t.id = u.id := congrArg Prod.fst hk
      have hpred : t.predecessors = u.predecessors := congrArg Prod.snd hk
      obtain ⟨h1, h2⟩ := hp
      refine ⟨fun p hp' => h1 p (hpred ▸ hp'), ?_⟩
      rw [← hid]
      exact ih hrest h2

/-! ## Verification of Kahn's algorithm (`Pert.topologicalSortCorrect`)

The loop invariant ties the in-degree map to the number of not-yet-emitted
predecessor occurrences of each task, and the queue to the pending tasks of
in-degree zero. -/

/-- Number of predecessor entries of `t` not yet emitted. -/
def pcount (t : Task) (emitted : List String) : Nat :=
  (t.predecessors.filter (fun p => decide (p ∉ emitted))).length

theorem pcount_nil (t : Task) : pcount t [] = t.predecessors.length := by
  simp [pcount]

theorem pcount_eq_zero_iff {t : Task} {emitted : List String} :
    pcount t emitted = 0 ↔ ∀ p ∈ t.predecessors, p ∈ emitted := by
  simp [pcount, List.length_eq_zero, List.filter_eq_nil_iff]

theorem count_le_pcount {t : Task} {emitted : List String} {c : String}
    (hc : c ∉ emitted) : t.predecessors.count c ≤ pcount t emitted := by
  unfold pcount
  induction t.predecessors with
  | nil => simp
  | cons p rest ih =>
    rw [List.count_cons, List.filter_cons]
    simp only [decide_eq_true_eq, beq_iff_eq]
    by_cases hp : p = c
    · subst hp
      rw [if_pos hc, if_pos rfl]
      simp only [List.length_cons]
      omega
    · rw [if_neg hp]
      split
      · simp only [List.length_cons]
        omega
      · omega

theorem pcount_snoc {t : Task} {emitted : List String} {c : String}
    (hc : c ∉ emitted) :
    pcount t (emitted ++ [c]) + t.predecessors.count c = pcount t emitted := by
  unfold pcount
  induction t.predecessors with
  | nil => simp
  | cons p rest ih =>
    rw [List.count_cons, List.filter_cons, List.filter_cons]
    simp only [decide_eq_true_eq, beq_iff_eq]
    by_cases hp : p = c
    · subst hp
      rw [if_neg (by simp), if_pos rfl, if_pos hc]
      simp only [List.length_cons]
      omega
    · by_cases hpe : p ∈ emitted
      · rw [if_neg (by simp [hpe]), if_neg hp, if_neg (by simp [hpe])]
        omega
      · rw [if_pos (by simp [hpe, hp]), if_neg hp, if_pos hpe]
        simp only [List.length_cons]
        omega

theorem mem_adjOf {tasks : List Task} {c i : String}
    (h : i ∈ Pert.adjOf tasks c) : ∃ u ∈ tasks, u.id = i ∧ c ∈ u.predecessors := by
  unfold Pert.adjOf at h
  simp only [List.mem_flatMap, List.mem_map, List.mem_filter] at h
  obtain ⟨u, hu, p, ⟨hp, hpc⟩, rfl⟩ := h
  exact ⟨u, hu, rfl, beq_iff_eq.mp hpc ▸ hp⟩

theorem count_map_const {α : Type} (xs : List α) (b a : String) :
    (xs.map (fun _ => b)).count a = if b == a then xs.length else 0 := by
  induction xs with
  | nil => simp
  | cons x rest ih =>
    simp only [List.map_cons, List.count_cons, ih]
    split <;> simp

theorem count_filter_length {l : List String} {c : String} :
    (l.filter (fun p => p == c)).length = l.count c := by
  simp [List.count_eq_countP, List.countP_eq_length_filter]

theorem count_adjOf {tasks : List Task} (hnd : (tasks.map (·.id)).Nodup)
    {t : Task} (ht : t ∈ tasks) (c : String) :
    (Pert.adjOf tasks c).count t.id = t.predecessors.count c := by
  induction tasks with
  | nil => cases ht
  | cons u rest ih =>
    have hadj : Pert.adjOf (u :: rest) c =
        ((u.predecessors.filter (fun p => p == c)).map (fun _ => u.id)) ++
          Pert.adjOf rest c := by
      simp [Pert.adjOf]
    rw [hadj, List.count_append, count_map_const]
    simp only [List.map_cons, List.nodup_cons] at hnd
    rcases List.mem_cons.mp ht with rfl | h'
    · have hzero : (Pert.adjOf rest c).count t.id = 0 := by
        rw [List.count_eq_zero]
        intro hmem
        obtain ⟨v, hv, hvid, _⟩ := mem_adjOf hmem
        exact hnd.1 (hvid ▸ List.mem_map_of_mem (·.id) hv)
      rw [if_pos (by simp), hzero, count_filter_length]
      omega
    · have hne : ¬ (u.id == t.id) = true := by
        intro hb
        exact hnd.1 (beq_iff_eq.mp hb ▸ List.mem_map_of_mem (·.id) h')
      rw [if_neg hne, ih hnd.2 h']
      omega

/-- The invariant of Kahn's loop, for a fixed task list. -/
structure KInv (tasks : List Task) (queue : List String) (indeg : String → Int)
    (result : List Task) : Prop where
  resMem : ∀ t ∈ result, t ∈ tasks
  resNodup : (result.map (·.id)).Nodup
  queueMem : ∀ i ∈ queue, i ∈ tasks.map (·.id)
  queueNodup : queue.Nodup
  queueNew : ∀ i ∈ queue, i ∉ result.map (·.id)
  degEq : ∀ t ∈ tasks, t.id ∉ result.map (·.id) →
    indeg t.id = (pcount t (result.map (·.id)) : Int)
  zeroQueued : ∀ t ∈ tasks, t.id ∉ result.map (·.id) → indeg t.id = 0 →
    t.id ∈ queue
  queueZero : ∀ i ∈ queue, indeg i = 0
  topo : PredsClosed [] result

theorem kahnRelax_spec :
    ∀ (L : List String) (indeg : String → Int) (queue : List String),
    (∀ i ∈ L, (L.count i : Int) ≤ indeg i) →
    (∀ i ∈ queue, indeg i = 0 ∧ i ∉ L) →
    (∀ j, (Pert.kahnRelax L indeg queue).1 j = indeg j - L.count j) ∧
    ∃ A, (Pert.kahnRelax L indeg queue).2 = queue ++ A ∧ A.Nodup ∧
      (∀ i, i ∈ A ↔ (i ∈ L ∧ indeg i = (L.count i : Int))) := by
  intro L
  induction L with
  | nil =>
    intro indeg queue _ _
    exact ⟨fun j => by simp [Pert.kahnRelax], [], by simp [Pert.kahnRelax], by simp, by simp⟩
  | cons s rest ih =>
    intro indeg queue h1 h2
    have hupd_s : Pert.fupd indeg s (indeg s - 1) s = indeg s - 1 := by
      simp [Pert.fupd]
    have hupd_ne : ∀ j, j ≠ s → Pert.fupd indeg s (indeg s - 1) j = indeg j := by
      intro j hj
      simp only [Pert.fupd]
      rw [if_neg (by simpa using hj)]
    have hs_le : ((s :: rest).count s : Int) ≤ indeg s := h1 s (List.mem_cons_self _ _)
    rw [List.count_cons_self] at hs_le
    push_cast at hs_le
    have h1' : ∀ i ∈ rest, (rest.count i : Int) ≤ Pert.fupd indeg s (indeg s - 1) i := by
      intro i hi
      by_cases his : i = s
      · subst his
        rw [hupd_s]
        omega
      · rw [hupd_ne i his]
        have := h1 i (List.mem_cons_of_mem _ hi)
        rwa [List.count_cons_of_ne his] at this
    by_cases hzero : indeg s - 1 = 0
    · -- s is enqueued
      have hs_not_rest : s ∉ rest := by
        have : (rest.count s : Int) ≤ 0 := by omega
        have hz : rest.count s = 0 := by omega
        exact List.count_eq_zero.mp hz
      have hrz : rest.count s = 0 := List.count_eq_zero.mpr hs_not_rest
      have h2' : ∀ i ∈ queue ++ [s], Pert.fupd indeg s (indeg s - 1) i = 0 ∧ i ∉ rest := by
        intro i hi
        rcases List.mem_append.mp hi with hi' | hi'
        · obtain ⟨hz, hnl⟩ := h2 i hi'
          have his : i ≠ s := fun h => hnl (h ▸ List.mem_cons_self _ _)
          exact ⟨by rw [hupd_ne i his]; exact hz,
            fun h => hnl (List.mem_cons_of_mem _ h)⟩
        · rcases List.mem_singleton.mp hi' with rfl
          exact ⟨by rw [hupd_s]; exact hzero, hs_not_rest⟩
      obtain ⟨hdeg, A', hqueue, hA'nd, hA'iff⟩ :=
        ih (Pert.fupd indeg s (indeg s - 1)) (queue ++ [s]) h1' h2'
      have hstep : Pert.kahnRelax (s :: rest) indeg queue =
          Pert.kahnRelax rest (Pert.fupd indeg s (indeg s - 1)) (queue ++ [s]) := by
        simp only [Pert.kahnRelax]
        rw [if_pos hzero]
      rw [hstep]
      refine ⟨?_, s :: A', ?_, ?_, ?_⟩
      · intro j
        rw [hdeg j]
        by_cases hjs : j = s
        · subst hjs
          rw [hupd_s, List.count_cons_self, hrz]
          push_cast
          ring
        · rw [hupd_ne j hjs, List.count_cons_of_ne hjs]
      · rw [hqueue, List.append_assoc, List.singleton_append]
      · rw [List.nodup_cons]
        exact ⟨fun hs => hs_not_rest ((hA'iff s).mp hs).1, hA'nd⟩
      · intro i
        by_cases his : i = s
        · subst his
          refine iff_of_true (List.mem_cons_self _ _) ⟨List.mem_cons_self _ _, ?_⟩
          rw [List.count_cons_self, hrz]
          push_cast
          omega
        · have hmem1 : (i ∈ s :: A') ↔ i ∈ A' := by simp [List.mem_cons, his]
          have hmem2 : (i ∈ s :: rest) ↔ i ∈ rest := by simp [List.mem_cons, his]
          rw [hmem1, hmem2, List.count_cons_of_ne his, hA'iff i, hupd_ne i his]
    · -- s is not enqueued
      have h2' : ∀ i ∈ queue, Pert.fupd indeg s (indeg s - 1) i = 0 ∧ i ∉ rest := by
        intro i hi
        obtain ⟨hz, hnl⟩ := h2 i hi
        have his : i ≠ s := fun h => hnl (h ▸ List.mem_cons_self _ _)
        exact ⟨by rw [hupd_ne i his]; exact hz,
          fun h => hnl (List.mem_cons_of_mem _ h)⟩
      obtain ⟨hdeg, A', hqueue, hA'nd, hA'iff⟩ :=
        ih (Pert.fupd indeg s (indeg s - 1)) queue h1' h2'
      have hstep : Pert.kahnRelax (s :: rest) indeg queue =
          Pert.kahnRelax rest (Pert.fupd indeg s (indeg s - 1)) queue := by
        simp only [Pert.kahnRelax]
        rw [if_neg hzero]
      rw [hstep]
      refine ⟨?_, A', hqueue, hA'nd, ?_⟩
      · intro j
        rw [hdeg j]
        by_cases hjs : j = s
        · subst hjs
          rw [hupd_s, List.count_cons_self]
          push_cast
          ring
        · rw [hupd_ne j hjs, List.count_cons_of_ne hjs]
      · intro i
        by_cases his : i = s
        · subst his
          rw [hA'iff i]
          constructor
          · rintro ⟨hm, he⟩
            rw [hupd_s] at he
            refine ⟨List.mem_cons_self _ _, ?_⟩
            rw [List.count_cons_self]
            push_cast at he ⊢
            omega
          · rintro ⟨_, he⟩
            rw [List.count_cons_self] at he
            have hmem : i ∈ rest := by
              by_contra hno
              have hz : rest.count i = 0 := List.count_eq_zero.mpr hno
              rw [hz] at he
              push_cast at he
              exact hzero (by omega)
            refine ⟨hmem, ?_⟩
            rw [hupd_s]
            push_cast at he ⊢
            omega
        · have hmem2 : (i ∈ s :: rest) ↔ i ∈ rest := by simp [List.mem_cons, his]
          rw [hA'iff i, hmem2, List.count_cons_of_ne his, hupd_ne i his]

theorem id_inj {tasks : List Task} (hnd : (tasks.map (·.id)).Nodup)
    {t u : Task} (ht : t ∈ tasks) (hu : u ∈ tasks) (h : t.id = u.id) : t = u := by
  have h1 := mapGet_eq_some hnd ht
  have h2 := mapGet_eq_some hnd hu
  rw [h] at h1
  rw [h1] at h2
  exact (Option.some.injEq .. ▸ h2 : t = u)

theorem predsClosed_mem_preds {d : List String} {l : List Task} {t : Task}
    (h : PredsClosed d l) (ht : t ∈ l) {p : String} (hp : p ∈ t.predecessors) :
    p ∈ d ++ l.map (·.id) := by
  induction l generalizing d with
  | nil => cases ht
  | cons u rest ih =>
    obtain ⟨h1, h2⟩ := h
    rcases List.mem_cons.mp ht with rfl | ht'
    · exact List.mem_append.mpr (Or.inl (h1 p hp))
    · have := ih h2 ht'
      rcases List.mem_append.mp this with h' | h'
      · rcases List.mem_append.mp h' with h'' | h''
        · exact List.mem_append.mpr (Or.inl h'')
        · rcases List.mem_singleton.mp h''
          exact List.mem_append.mpr (Or.inr (by simp))
      · exact List.mem_append.mpr (Or.inr (by simp [h']))

theorem kahn_step {tasks : List Task} (hnd : (tasks.map (·.id)).Nodup)
    {c : String} {q : List String} {indeg : String → Int}
    {result : List Task} (hinv : KInv tasks (c :: q) indeg result) :
    ∃ current, mapGet tasks c = some current ∧
      KInv tasks (Pert.kahnRelax (Pert.adjOf tasks c) indeg q).2
        (Pert.kahnRelax (Pert.adjOf tasks c) indeg q).1 (result ++ [current]) := by
  obtain ⟨current, hcur_mem, hcid⟩ :=
    List.mem_map.mp (hinv.queueMem c (List.mem_cons_self _ _))
  have hget : mapGet tasks c = some current := hcid ▸ mapGet_eq_some hnd hcur_mem
  have hcE : c ∉ result.map (·.id) := hinv.queueNew c (List.mem_cons_self _ _)
  have hdegc : indeg c = 0 := hinv.queueZero c (List.mem_cons_self _ _)
  have hpcz : pcount current (result.map (·.id)) = 0 := by
    have := hinv.degEq current hcur_mem (hcid ▸ hcE)
    rw [hcid, hdegc] at this
    exact_mod_cast this.symm
  have hcurPreds : ∀ p ∈ current.predecessors, p ∈ result.map (·.id) :=
    pcount_eq_zero_iff.mp hpcz
  have hEnoC : ∀ u ∈ tasks, u.id ∈ result.map (·.id) → c ∉ u.predecessors := by
    intro u hu huE hcu
    obtain ⟨v, hv, hvid⟩ := List.mem_map.mp huE
    have hvu : v = u := id_inj hnd (hinv.resMem v hv) hu hvid
    subst hvu
    have := predsClosed_mem_preds hinv.topo hv hcu
    rw [List.nil_append] at this
    exact hcE this
  have hadjmem : ∀ i ∈ Pert.adjOf tasks c,
      i ∈ tasks.map (·.id) ∧ i ∉ result.map (·.id) := by
    intro i hi
    obtain ⟨u, hu, rfl, hcu⟩ := mem_adjOf hi
    exact ⟨List.mem_map_of_mem _ hu, fun h => hEnoC u hu h hcu⟩
  have hcadj : c ∉ Pert.adjOf tasks c := by
    intro h
    obtain ⟨u, hu, huid, hcu⟩ := mem_adjOf h
    have : u = current := id_inj hnd hu hcur_mem (huid.trans hcid.symm)
    subst this
    exact hcE (hcurPreds c hcu)
  have hqNoC : c ∉ q := (List.nodup_cons.mp hinv.queueNodup).1
  have hH1 : ∀ i ∈ Pert.adjOf tasks c,
      ((Pert.adjOf tasks c).count i : Int) ≤ indeg i := by
    intro i hi
    obtain ⟨u, hu, rfl, hcu⟩ := mem_adjOf hi
    have huE : u.id ∉ result.map (·.id) := fun h => hEnoC u hu h hcu
    rw [hinv.degEq u hu huE, count_adjOf hnd hu c]
    exact_mod_cast count_le_pcount hcE
  have hH2 : ∀ i ∈ q, indeg i = 0 ∧ i ∉ Pert.adjOf tasks c := by
    intro i hi
    have hz := hinv.queueZero i (List.mem_cons_of_mem _ hi)
    refine ⟨hz, fun hmem => ?_⟩
    obtain ⟨u, hu, rfl, hcu⟩ := mem_adjOf hmem
    have huE : u.id ∉ result.map (·.id) :=
      hinv.queueNew u.id (List.mem_cons_of_mem _ hi)
    have hdeq := hinv.degEq u hu huE
    rw [hz] at hdeq
    have hz' : pcount u (result.map (·.id)) = 0 := by exact_mod_cast hdeq.symm
    exact hcE (pcount_eq_zero_iff.mp hz' c hcu)
  obtain ⟨hdeg, A, hqA, hAnd, hAiff⟩ :=
    kahnRelax_spec (Pert.adjOf tasks c) indeg q hH1 hH2
  have hmapE : (result ++ [current]).map (·.id) = result.map (·.id) ++ [c] := by
    simp [hcid]
  refine ⟨current, hget, ?_⟩
  constructor
  · intro t ht
    rcases List.mem_append.mp ht with h' | h'
    · exact hinv.resMem t h'
    · rcases List.mem_singleton.mp h'
      exact hcur_mem
  · rw [hmapE, List.nodup_append]
    refine ⟨hinv.resNodup, by simp, ?_⟩
    intro a ha hb
    rcases List.mem_singleton.mp hb
    exact hcE ha
  · intro i hi
    rw [hqA] at hi
    rcases List.mem_append.mp hi with h' | h'
    · exact hinv.queueMem i (List.mem_cons_of_mem _ h')
    · exact (hadjmem i ((hAiff i).mp h').1).1
  · rw [hqA, List.nodup_append]
    refine ⟨(List.nodup_cons.mp hinv.queueNodup).2, hAnd, ?_⟩
    intro a ha hb
    exact (hH2 a ha).2 ((hAiff a).mp hb).1
  · intro i hi
    rw [hqA] at hi
    rw [hmapE]
    rcases List.mem_append.mp hi with h' | h'
    · have h1 := hinv.queueNew i (List.mem_cons_of_mem _ h')
      have h2 : i ≠ c := fun h => hqNoC (h ▸ h')
      simp [List.mem_append, h1, h2]
    · have hadj := (hAiff i).mp h'
      have h1 := (hadjmem i hadj.1).2
      have h2 : i ≠ c := fun h => hcadj (h ▸ hadj.1)
      simp [List.mem_append, h1, h2]
  · intro t ht htE'
    rw [hmapE] at htE'
    have htE : t.id ∉ result.map (·.id) := fun h => htE' (List.mem_append.mpr (Or.inl h))
    have htc : t.id ≠ c := fun h => htE' (List.mem_append.mpr (Or.inr (by simp [h])))
    rw [hmapE, hdeg t.id, hinv.degEq t ht htE, count_adjOf hnd ht c]
    have := @pcount_snoc t (result.map (·.id)) c hcE
    omega
  · intro t ht htE' hz
    rw [hmapE] at htE'
    have htE : t.id ∉ result.map (·.id) := fun h => htE' (List.mem_append.mpr (Or.inl h))
    have htc : t.id ≠ c := fun h => htE' (List.mem_append.mpr (Or.inr (by simp [h])))
    rw [hdeg t.id] at hz
    rw [hqA]
    by_cases hct : t.id ∈ Pert.adjOf tasks c
    · refine List.mem_append.mpr (Or.inr ((hAiff t.id).mpr ⟨hct, ?_⟩))
      omega
    · have hcnt : (Pert.adjOf tasks c).count t.id = 0 := List.count_eq_zero.mpr hct
      rw [hcnt] at hz
      push_cast at hz
      have := hinv.zeroQueued t ht htE (by omega)
      rcases List.mem_cons.mp this with h' | h'
      · exact absurd h' htc
      · exact List.mem_append.mpr (Or.inl h')
  · intro i hi
    rw [hqA] at hi
    rw [hdeg i]
    rcases List.mem_append.mp hi with h' | h'
    · obtain ⟨hz, hnadj⟩ := hH2 i h'
      rw [hz, List.count_eq_zero.mpr hnadj]
      simp
    · obtain ⟨_, he⟩ := (hAiff i).mp h'
      omega
  · rw [predsClosed_append]
    refine ⟨hinv.topo, ?_, trivial⟩
    intro p hp
    rw [List.nil_append]
    exact hcurPreds p hp

theorem kahnLoop_spec {tasks : List Task} (hnd : (tasks.map (·.id)).Nodup) :
    ∀ (fuel : Nat) (queue : List String) (indeg : String → Int) (result : List Task),
    KInv tasks queue indeg result →
    ∃ queue' indeg',
      KInv tasks queue' indeg' (Pert.kahnLoop tasks fuel queue indeg result) ∧
      (queue' = [] ∨
        (Pert.kahnLoop tasks fuel queue indeg result).length = result.length + fuel) := by
  intro fuel
  induction fuel with
  | zero =>
    intro queue indeg result hinv
    exact ⟨queue, indeg, by simpa [Pert.kahnLoop] using hinv,
      Or.inr (by simp [Pert.kahnLoop])⟩
  | succ fuel ih =>
    intro queue indeg result hinv
    cases queue with
    | nil =>
      exact ⟨[], indeg, by simpa [Pert.kahnLoop] using hinv, Or.inl rfl⟩
    | cons c q =>
      obtain ⟨current, hget, hinv'⟩ := kahn_step hnd hinv
      have hunfold : Pert.kahnLoop tasks (fuel + 1) (c :: q) indeg result =
          Pert.kahnLoop tasks fuel (Pert.kahnRelax (Pert.adjOf tasks c) indeg q).2
            (Pert.kahnRelax (Pert.adjOf tasks c) indeg q).1 (result ++ [current]) := by
        simp only [Pert.kahnLoop, hget]
      rw [hunfold]
      obtain ⟨q', d', hinv'', hdisj⟩ := ih _ _ _ hinv'
      refine ⟨q', d', hinv'', ?_⟩
      rcases hdisj with h | h
      · exact Or.inl h
      · right
        rw [h]
        simp only [List.length_append, List.length_singleton]
        omega

theorem hasId_eq_true_iff {tasks : List Task} {p : String} :
    Pert.hasId tasks p = true ↔ p ∈ tasks.map (·.id) := by
  simp [Pert.hasId, List.any_eq_true, List.mem_map, beq_iff_eq]

theorem map_sum_if_zero {f : Task → Nat} {i : String} :
    ∀ (l : List Task), (∀ u ∈ l, u.id ≠ i) →
    (l.map (fun u => if u.id == i then f u else 0)).sum = 0 := by
  intro l
  induction l with
  | nil => simp
  | cons u rest ih =>
    intro h
    have hne : ¬ (u.id == i) = true := by
      simp only [beq_iff_eq]
      exact h u (List.mem_cons_self _ _)
    simp only [List.map_cons, List.sum_cons, if_neg hne, Nat.zero_add]
    exact ih (fun v hv => h v (List.mem_cons_of_mem _ hv))

theorem map_sum_if_single {f : Task → Nat} :
    ∀ (l : List Task), (l.map (·.id)).Nodup → ∀ t ∈ l,
    (l.map (fun u => if u.id == t.id then f u else 0)).sum = f t := by
  intro l
  induction l with
  | nil => intro _ t ht; cases ht
  | cons u rest ih =>
    intro hnd t ht
    simp only [List.map_cons, List.nodup_cons] at hnd
    rcases List.mem_cons.mp ht with rfl | h'
    · rw [List.map_cons, List.sum_cons,
        map_sum_if_zero rest
          (fun v hv hvi => hnd.1 (by rw [← hvi]; exact List.mem_map_of_mem _ hv)),
        if_pos (beq_self_eq_true t.id), Nat.add_zero]
    · have hne : ¬ (u.id == t.id) = true := by
        simp only [beq_iff_eq]
        intro h
        exact hnd.1 (h ▸ List.mem_map_of_mem (·.id) h')
      simp only [List.map_cons, List.sum_cons, if_neg hne, Nat.zero_add]
      exact ih hnd.2 t h'

theorem inDeg0_eq {tasks : List Task} (hnd : (tasks.map (·.id)).Nodup)
    (href : RefSound tasks) {t : Task} (ht : t ∈ tasks) :
    Pert.inDeg0 tasks t.id = (t.predecessors.length : Int) := by
  unfold Pert.inDeg0
  rw [map_sum_if_single tasks hnd t ht]
  congr 1
  rw [List.filter_eq_self.mpr]
  intro p hp
  exact hasId_eq_true_iff.mpr (href t ht p hp)

theorem kahnInit {tasks : List Task} (hnd : (tasks.map (·.id)).Nodup)
    (href : RefSound tasks) :
    KInv tasks ((tasks.map (·.id)).filter (fun i => Pert.inDeg0 tasks i == 0))
      (Pert.inDeg0 tasks) [] := by
  constructor
  · intro t ht; cases ht
  · simp
  · intro i hi; exact (List.mem_filter.mp hi).1
  · exact hnd.filter _
  · intro i _; simp
  · intro t ht _
    rw [inDeg0_eq hnd href ht]
    simp [pcount_nil]
  · intro t ht _ hz
    exact List.mem_filter.mpr ⟨List.mem_map_of_mem _ ht, by simp [hz]⟩
  · intro i hi
    have := (List.mem_filter.mp hi).2
    rwa [beq_iff_eq] at this
  · trivial

theorem first_pending {E : List String} :
    ∀ (w : List Task) (d : List String), PredsClosed d w → (∀ x ∈ d, x ∈ E) →
    (∃ t ∈ w, t.id ∉ E) →
    ∃ u ∈ w, u.id ∉ E ∧ ∀ p ∈ u.predecessors, p ∈ E := by
  intro w
  induction w with
  | nil =>
    rintro d _ _ ⟨t, ht, _⟩
    cases ht
  | cons t rest ih =>
    rintro d ⟨h1, h2⟩ hd hex
    by_cases htE : t.id ∈ E
    · have hd' : ∀ x ∈ d ++ [t.id], x ∈ E := by
        intro x hx
        rcases List.mem_append.mp hx with h' | h'
        · exact hd x h'
        · rcases List.mem_singleton.mp h'
          exact htE
      have hex' : ∃ u ∈ rest, u.id ∉ E := by
        obtain ⟨u, hu, hue⟩ := hex
        rcases List.mem_cons.mp hu with rfl | h'
        · exact absurd htE hue
        · exact ⟨u, h', hue⟩
      obtain ⟨u, hu, h3, h4⟩ := ih (d ++ [t.id]) h2 hd' hex'
      exact ⟨u, List.mem_cons_of_mem _ hu, h3, h4⟩
    · exact ⟨t, List.mem_cons_self _ _, htE, fun p hp => hd p (h1 p hp)⟩

/-- On a valid input, `topologicalSortCorrect` succeeds and returns a
topologically sorted permutation of the task list. -/
theorem topologicalSortCorrect_ok {tasks : List Task} (h : ValidInput tasks) :
    ∃ sorted, Pert.topologicalSortCorrect tasks = .ok sorted ∧
      sorted.Perm tasks ∧ (sorted.map (·.id)).Nodup ∧ PredsClosed [] sorted := by
  obtain ⟨hne, hnd, href, w, hwperm, hwtopo⟩ := h
  obtain ⟨q', d', hinv, hdisj⟩ :=
    kahnLoop_spec hnd tasks.length
      ((tasks.map (·.id)).filter (fun i => Pert.inDeg0 tasks i == 0))
      (Pert.inDeg0 tasks) [] (kahnInit hnd href)
  have hlen : (Pert.kahnLoop tasks tasks.length
      ((tasks.map (·.id)).filter (fun i => Pert.inDeg0 tasks i == 0))
      (Pert.inDeg0 tasks) []).length = tasks.length := by
    rcases hdisj with hq' | hq'
    · -- the queue emptied: every task has been emitted
      subst hq'
      have hall : ∀ t ∈ tasks, t.id ∈ (Pert.kahnLoop tasks tasks.length
          ((tasks.map (·.id)).filter (fun i => Pert.inDeg0 tasks i == 0))
          (Pert.inDeg0 tasks) []).map (·.id) := by
        by_contra hno
        push_neg at hno
        obtain ⟨t, ht, htE⟩ := hno
        obtain ⟨u, hu, huE, hupreds⟩ :=
          first_pending w [] hwtopo (by simp) ⟨t, hwperm.mem_iff.mpr ht, htE⟩
        have humem : u ∈ tasks := hwperm.subset hu
        have hz : d' u.id = 0 := by
          rw [hinv.degEq u humem huE,
            show pcount u _ = 0 from pcount_eq_zero_iff.mpr hupreds]
          simp
        cases hinv.zeroQueued u humem huE hz
      have hsub1 : ∀ i ∈ (Pert.kahnLoop tasks tasks.length
          ((tasks.map (·.id)).filter (fun i => Pert.inDeg0 tasks i == 0))
          (Pert.inDeg0 tasks) []).map (·.id), i ∈ tasks.map (·.id) := by
        intro i hi
        obtain ⟨t, ht, rfl⟩ := List.mem_map.mp hi
        exact List.mem_map_of_mem _ (hinv.resMem t ht)
      have hsub2 : ∀ i ∈ tasks.map (·.id), i ∈ (Pert.kahnLoop tasks tasks.length
          ((tasks.map (·.id)).filter (fun i => Pert.inDeg0 tasks i == 0))
          (Pert.inDeg0 tasks) []).map (·.id) := by
        intro i hi
        obtain ⟨t, ht, rfl⟩ := List.mem_map.mp hi
        exact hall t ht
      have hperm_ids := (List.subperm_of_subset hinv.resNodup hsub1).antisymm
        (List.subperm_of_subset hnd hsub2)
      have := hperm_ids.length_eq
      simpa using this
    · simpa using hq'
  have hRsub : (Pert.kahnLoop tasks tasks.length
      ((tasks.map (·.id)).filter (fun i => Pert.inDeg0 tasks i == 0))
      (Pert.inDeg0 tasks) []) ⊆ tasks := fun {t} ht => hinv.resMem t ht
  have hRnodup := List.Nodup.of_map _ hinv.resNodup
  have hperm : (Pert.kahnLoop tasks tasks.length
      ((tasks.map (·.id)).filter (fun i => Pert.inDeg0 tasks i == 0))
      (Pert.inDeg0 tasks) []).Perm tasks :=
    (List.subperm_of_subset hRnodup hRsub).perm_of_length_le (le_of_eq hlen.symm)
  refine ⟨_, ?_, hperm, hinv.resNodup, hinv.topo⟩
  simp only [Pert.topologicalSortCorrect]
  rw [if_pos hlen]

/-! ## Verification of the forward pass -/

/-- What the forward pass establishes for a task, relative to the list `out`
holding the final states of all tasks: the earliest dates are set,
`earliestFinish = earliestStart + duration`, and `earliestStart` dominates
the earliest finish of every predecessor. -/
def FwdProp (out : List Task) (u : Task) : Prop :=
  ∃ es : Int, u.earliestStart = some es ∧
    u.earliestFinish = some (es + u.duration) ∧
    ∀ p ∈ u.predecessors, ∀ v ∈ out, v.id = p → jsOr v.earliestFinish 0 ≤ es

theorem core_id {u v : Task} (h : u.core = v.core) : u.id = v.id :=
  congrArg TaskCore.id h

theorem core_predecessors {u v : Task} (h : u.core = v.core) :
    u.predecessors = v.predecessors :=
  congrArg TaskCore.predecessors h

theorem core_duration {u v : Task} (h : u.core = v.core) :
    u.duration = v.duration :=
  congrArg TaskCore.duration h

theorem map_gkey_of_map_core {l l' : List Task}
    (h : l.map Task.core = l'.map Task.core) :
    l.map Task.gkey = l'.map Task.gkey := by
  have h1 : (l.map Task.core).map (fun c => (c.id, c.predecessors)) =
      (l'.map Task.core).map (fun c => (c.id, c.predecessors)) := by rw [h]
  simpa [List.map_map, Function.comp, Task.gkey, Task.core] using h1

theorem map_id_of_map_core {l l' : List Task}
    (h : l.map Task.core = l'.map Task.core) :
    l.map (·.id) = l'.map (·.id) := by
  have h1 : (l.map Task.core).map TaskCore.id =
      (l'.map Task.core).map TaskCore.id := by rw [h]
  simpa [List.map_map, Function.comp, Task.core] using h1

theorem le_fwdEs {heap : List Task} (hnd : (heap.map (·.id)).Nodup)
    {t v : Task} {p : String} (hp : p ∈ t.predecessors) (hv : v ∈ heap)
    (hvid : v.id = p) :
    jsOr v.earliestFinish 0 ≤ Pert.fwdEs heap t := by
  unfold Pert.fwdEs
  have hne : ¬ t.predecessors.isEmpty = true := by
    intro h
    rw [List.isEmpty_iff] at h
    rw [h] at hp
    cases hp
  rw [if_neg hne]
  apply le_jsMax_of_mem
  have hget : mapGet heap p = some v := hvid ▸ mapGet_eq_some hnd hv
  have heq : (fun p => match mapGet heap p with
      | some pred => jsOr pred.earliestFinish 0
      | none => 0) p = jsOr v.earliestFinish 0 := by
    simp only [hget]
  rw [← heq]
  exact List.mem_map_of_mem _ hp

theorem forwardGo_spec :
    ∀ (todo done : List Task),
    ((done ++ todo).map (·.id)).Nodup →
    PredsClosed [] (done ++ todo) →
    (∀ u ∈ done, FwdProp done u) →
    (Pert.forwardGo done todo).map Task.core = (done ++ todo).map Task.core ∧
    ∀ u ∈ Pert.forwardGo done todo, FwdProp (Pert.forwardGo done todo) u := by
  intro todo
  induction todo with
  | nil =>
    intro done _ _ hdone
    refine ⟨by simp [Pert.forwardGo], ?_⟩
    simpa [Pert.forwardGo] using hdone
  | cons t rest ih =>
    intro done hnd htopo hdone
    have hsplit := predsClosed_append.mp htopo
    have hmapsplit : ((done.map (·.id)) ++ (t.id :: rest.map (·.id))).Nodup := by
      simpa using hnd
    have htNotDone : t.id ∉ done.map (·.id) := by
      rw [List.nodup_append] at hmapsplit
      exact fun hmem => hmapsplit.2.2 hmem (List.mem_cons_self _ _)
    have hstep : Pert.forwardGo done (t :: rest) =
        Pert.forwardGo (done ++ [{ t with
          earliestStart := some (Pert.fwdEs (done ++ t :: rest) t),
          earliestFinish := some (Pert.fwdEs (done ++ t :: rest) t + t.duration) }])
          rest := by
      simp only [Pert.forwardGo]
    rw [hstep]
    set es := Pert.fwdEs (done ++ t :: rest) t with hes
    have hkey : ∀ p ∈ t.predecessors, ∀ v ∈ done, v.id = p →
        jsOr v.earliestFinish 0 ≤ es := by
      intro p hp v hv hvid
      rw [hes]
      exact le_fwdEs hnd hp (List.mem_append.mpr (Or.inl hv)) hvid
    generalize ht2 : ({ t with earliestStart := some es, earliestFinish := some (es + t.duration) } : Task) = t2
    have ht2core : Task.core t2 = Task.core t := by rw [← ht2]; rfl
    have ht2gkey : Task.gkey t2 = Task.gkey t := by rw [← ht2]; rfl
    have ht2id : t2.id = t.id := by rw [← ht2]
    have ht2dur : t2.duration = t.duration := by rw [← ht2]
    have ht2preds : t2.predecessors = t.predecessors := by rw [← ht2]
    have ht2es : t2.earliestStart = some es := by rw [← ht2]
    have ht2ef : t2.earliestFinish = some (es + t.duration) := by rw [← ht2]
    have hnd' : (((done ++ [t2]) ++ rest).map (·.id)).Nodup := by
      have hirw : (((done ++ [t2]) ++ rest).map (·.id)) =
          ((done ++ t :: rest).map (·.id)) := by
        simp [ht2id]
      rw [hirw]
      exact hnd
    have htopo' : PredsClosed [] ((done ++ [t2]) ++ rest) := by
      refine predsClosed_of_gkeys ?_ htopo
      simp [ht2gkey]
    have hdone' : ∀ u ∈ done ++ [t2], FwdProp (done ++ [t2]) u := by
      intro u hu
      rcases List.mem_append.mp hu with hu' | hu'
      · obtain ⟨esu, h1, h2, h3⟩ := hdone u hu'
        refine ⟨esu, h1, h2, ?_⟩
        intro p hp v hv hvid
        rcases List.mem_append.mp hv with hv' | hv'
        · exact h3 p hp v hv' hvid
        · rcases List.mem_singleton.mp hv'
          exfalso
          have hpd : p ∈ done.map (·.id) := by
            have := predsClosed_mem_preds hsplit.1 hu' hp
            simpa using this
          rw [ht2id] at hvid
          exact htNotDone (hvid ▸ hpd)
      · rcases List.mem_singleton.mp hu'
        refine ⟨es, ht2es, by rw [ht2ef, ht2dur], ?_⟩
        intro p hp v hv hvid
        rw [ht2preds] at hp
        rcases List.mem_append.mp hv with hv' | hv'
        · exact hkey p hp v hv' hvid
        · rcases List.mem_singleton.mp hv'
          exfalso
          have hpd : p ∈ done.map (·.id) := by
            have := hsplit.2.1 p hp
            simpa using this
          rw [ht2id] at hvid
          exact htNotDone (hvid ▸ hpd)
    obtain ⟨hcore', hprop'⟩ := ih (done ++ [t2]) hnd' htopo' hdone'
    refine ⟨?_, hprop'⟩
    rw [hcore']
    simp [ht2core]

/-! ## Verification of the backward pass -/

/-- What the backward pass establishes for a task: the latest dates are set,
`latestStart = latestFinish - duration`, and `latestFinish` dominates the
task's earliest finish (hence slack is non-negative). -/
def BwdProp (u : Task) : Prop :=
  ∃ lf : Int, u.latestFinish = some lf ∧
    u.latestStart = some (lf - u.duration) ∧
    jsOr u.earliestFinish 0 ≤ lf

/-- The projection preserved by the backward pass: everything the input
carries except the latest dates (which it writes). -/
def bwdKey (t : Task) : TaskCore × Option Int × Option Int × Option Int × Option Bool × Option Int × Option Int :=
  (t.core, t.earliestStart, t.earliestFinish, t.slack, t.isCritical, t.start, t.endT)

theorem bwdKey_core {u v : Task} (h : bwdKey u = bwdKey v) : u.core = v.core :=
  congrArg Prod.fst h

theorem bwdKey_es {u v : Task} (h : bwdKey u = bwdKey v) :
    u.earliestStart = v.earliestStart :=
  congrArg (fun x => x.2.1) h

theorem bwdKey_ef {u v : Task} (h : bwdKey u = bwdKey v) :
    u.earliestFinish = v.earliestFinish :=
  congrArg (fun x => x.2.2.1) h

theorem mem_key_exists {κ : Type} {key : Task → κ} {l l' : List Task}
    (h : l.map key = l'.map key) {u' : Task} (hu : u' ∈ l') :
    ∃ u ∈ l, key u = key u' := by
  have : key u' ∈ l.map key := by
    rw [h]
    exact List.mem_map_of_mem _ hu
  obtain ⟨u, hu', he⟩ := List.mem_map.mp this
  exact ⟨u, hu', he⟩

theorem map_core_of_map_bwdKey {l l' : List Task}
    (h : l.map bwdKey = l'.map bwdKey) : l.map Task.core = l'.map Task.core := by
  have h1 : (l.map bwdKey).map Prod.fst = (l'.map bwdKey).map Prod.fst := by rw [h]
  simpa [List.map_map, Function.comp, bwdKey] using h1

theorem hfwd_transfer {l l' : List Task} (h : l.map bwdKey = l'.map bwdKey)
    (hf : ∀ u ∈ l, FwdProp l u) : ∀ u ∈ l', FwdProp l' u := by
  intro u' hu'
  obtain ⟨u, hu, hk⟩ := mem_key_exists h hu'
  obtain ⟨es, h1, h2, h3⟩ := hf u hu
  refine ⟨es, ?_, ?_, ?_⟩
  · rw [← bwdKey_es hk]
    exact h1
  · rw [← bwdKey_ef hk, ← core_duration (bwdKey_core hk)]
    exact h2
  · intro p hp v' hv' hvid
    rw [← core_predecessors (bwdKey_core hk)] at hp
    obtain ⟨v, hv, hkv⟩ := mem_key_exists h hv'
    have := h3 p hp v hv (by rw [core_id (bwdKey_core hkv)]; exact hvid)
    rwa [bwdKey_ef hkv] at this

/-- Soundness of a successor map relative to the current heap. -/
def SuccSound (succs : String → List String) (heap : List Task) : Prop :=
  ∀ i j, j ∈ succs i ↔ ∃ v ∈ heap, v.id = j ∧ i ∈ v.predecessors

theorem succSound_transfer {succs : String → List String} {l l' : List Task}
    (h : l.map bwdKey = l'.map bwdKey) (hs : SuccSound succs l) :
    SuccSound succs l' := by
  intro i j
  rw [hs i j]
  constructor
  · rintro ⟨v, hv, rfl, hiv⟩
    obtain ⟨v', hv', hk⟩ := mem_key_exists h.symm hv
    refine ⟨v', hv', ?_, ?_⟩
    · rw [core_id (bwdKey_core hk)]
    · rw [core_predecessors (bwdKey_core hk)]
      exact hiv
  · rintro ⟨v', hv', rfl, hiv⟩
    obtain ⟨v, hv, hk⟩ := mem_key_exists h hv'
    refine ⟨v, hv, ?_, ?_⟩
    · rw [core_id (bwdKey_core hk)]
    · rw [core_predecessors (bwdKey_core hk)]
      exact hiv

theorem mem_succsOf {tasks : List Task} {i j : String} :
    j ∈ Pert.succsOf tasks i ↔ ∃ v ∈ tasks, v.id = j ∧ i ∈ v.predecessors := by
  unfold Pert.succsOf
  simp only [List.mem_flatMap, List.mem_map, List.mem_filter, beq_iff_eq]
  constructor
  · rintro ⟨v, hv, p, ⟨hp, rfl⟩, rfl⟩
    exact ⟨v, hv, rfl, hp⟩
  · rintro ⟨v, hv, rfl, hi⟩
    exact ⟨v, hv, i, ⟨hi, rfl⟩, rfl⟩

/-- In a topologically sorted list with unique ids, every task that lists
`t.id` as a predecessor sits strictly after `t`. -/
theorem succ_in_suffix {xs ys : List Task} {t v : Task}
    (htopo : PredsClosed [] (xs ++ t :: ys))
    (hnd : ((xs ++ t :: ys).map (·.id)).Nodup)
    (hv : v ∈ xs ++ t :: ys) (hpred : t.id ∈ v.predecessors) : v ∈ ys := by
  have hsplit := predsClosed_append.mp htopo
  have hmapsplit : ((xs.map (·.id)) ++ (t.id :: ys.map (·.id))).Nodup := by
    simpa using hnd
  have htNot : t.id ∉ xs.map (·.id) := by
    rw [List.nodup_append] at hmapsplit
    exact fun hmem => hmapsplit.2.2 hmem (List.mem_cons_self _ _)
  rcases List.mem_append.mp hv with hv' | hv'
  · exfalso
    have := predsClosed_mem_preds hsplit.1 hv' hpred
    exact htNot (by simpa using this)
  · rcases List.mem_cons.mp hv' with rfl | hv''
    · exfalso
      have := hsplit.2.1 v.id hpred
      exact htNot (by simpa using this)
    · exact hv''

theorem backwardGo_spec (projEnd : Int) (succs : String → List String) :
    ∀ (rem done : List Task),
    ((rem.reverse ++ done).map (·.id)).Nodup →
    PredsClosed [] (rem.reverse ++ done) →
    (∀ u ∈ rem.reverse ++ done, FwdProp (rem.reverse ++ done) u) →
    (∀ u ∈ rem.reverse ++ done, jsOr u.earliestFinish 0 ≤ projEnd) →
    SuccSound succs (rem.reverse ++ done) →
    (∀ u ∈ done, BwdProp u) →
    (Pert.backwardGo projEnd succs rem done).map bwdKey =
      (rem.reverse ++ done).map bwdKey ∧
    ∀ u ∈ Pert.backwardGo projEnd succs rem done, BwdProp u := by
  intro rem
  induction rem with
  | nil =>
    intro done _ _ _ _ _ hdone
    exact ⟨by simp [Pert.backwardGo], by simpa [Pert.backwardGo] using hdone⟩
  | cons t rem' ih =>
    intro done hnd htopo hfwd hbound hss hdone
    have hheap : (t :: rem').reverse ++ done = rem'.reverse ++ t :: done := by simp
    have htmem : t ∈ (t :: rem').reverse ++ done := by simp
    have hstep : Pert.backwardGo projEnd succs (t :: rem') done =
        Pert.backwardGo projEnd succs rem'
          ({ t with
            latestFinish := some (Pert.bwdLf ((t :: rem').reverse ++ done) projEnd (succs t.id)),
            latestStart := some (Pert.bwdLf ((t :: rem').reverse ++ done) projEnd (succs t.id) - t.duration) } :: done) := by
      simp only [Pert.backwardGo]
    rw [hstep]
    set lf := Pert.bwdLf ((t :: rem').reverse ++ done) projEnd (succs t.id) with hlf
    have hkey : jsOr t.earliestFinish 0 ≤ lf := by
      rw [hlf]
      unfold Pert.bwdLf
      by_cases hemp : (succs t.id).isEmpty = true
      · rw [if_pos hemp]
        exact hbound t htmem
      · rw [if_neg hemp]
        apply le_jsMin
        · intro h
          rw [List.map_eq_nil_iff] at h
          rw [h] at hemp
          exact hemp rfl
        · intro a ha
          obtain ⟨s, hs, rfl⟩ := List.mem_map.mp ha
          obtain ⟨v, hv, hvid, hvpred⟩ := (hss t.id s).mp hs
          have hvdone : v ∈ done := by
            rw [hheap] at htopo hnd
            exact succ_in_suffix htopo hnd (by rw [← hheap]; exact hv) hvpred
          have hget : mapGet ((t :: rem').reverse ++ done) s = some v :=
            hvid ▸ mapGet_eq_some hnd hv
          obtain ⟨lfv, hv1, hv2, hv3⟩ := hdone v hvdone
          simp only [hget, hv2]
          rcases jsOr_some_cases (lfv - v.duration) projEnd with h | h <;> rw [h]
          · obtain ⟨esv, hesv, hefv, hrel⟩ := hfwd v hv
            have h1 : jsOr t.earliestFinish 0 ≤ esv := hrel t.id hvpred t htmem rfl
            have h2 : jsOr v.earliestFinish 0 ≤ lfv := hv3
            rw [hefv, jsOr_some_zero] at h2
            omega
          · exact hbound t htmem
    generalize ht2 : ({ t with latestFinish := some lf, latestStart := some (lf - t.duration) } : Task) = t2
    have ht2key : bwdKey t2 = bwdKey t := by rw [← ht2]; rfl
    have ht2dur : t2.duration = t.duration := by rw [← ht2]
    have ht2lf : t2.latestFinish = some lf := by rw [← ht2]
    have ht2ls : t2.latestStart = some (lf - t.duration) := by rw [← ht2]
    have ht2ef : t2.earliestFinish = t.earliestFinish := by rw [← ht2]
    have hmapkey : (rem'.reverse ++ t2 :: done).map bwdKey =
        ((t :: rem').reverse ++ done).map bwdKey := by
      rw [hheap]
      simp [ht2key]
    obtain ⟨hk', hp'⟩ := ih (t2 :: done)
      (by rw [map_id_of_map_core (map_core_of_map_bwdKey hmapkey)]; exact hnd)
      (predsClosed_of_gkeys
        (map_gkey_of_map_core (map_core_of_map_bwdKey hmapkey.symm)) htopo)
      (hfwd_transfer hmapkey.symm hfwd)
      (by
        intro u hu
        obtain ⟨u0, hu0, hk0⟩ := mem_key_exists hmapkey.symm hu
        rw [← bwdKey_ef hk0]
        exact hbound u0 hu0)
      (succSound_transfer hmapkey.symm hss)
      (by
        intro u hu
        rcases List.mem_cons.mp hu with rfl | hu'
        · refine ⟨lf, ht2lf, by rw [ht2ls, ht2dur], ?_⟩
          rw [ht2ef]
          exact hkey
        · exact hdone u hu')
    refine ⟨?_, hp'⟩
    rw [hk', hmapkey]

/-! ## The slack pass and the assembled pipeline -/

/-- Everything the pipeline establishes per task: all six computed fields
are populated, they satisfy the CPM identities, and slack is
non-negative. -/
def FinalProp (u : Task) : Prop :=
  ∃ es ls lf sl : Int,
    u.earliestStart = some es ∧ u.earliestFinish = some (es + u.duration) ∧
    u.latestStart = some ls ∧ u.latestFinish = some lf ∧
    ls = lf - u.duration ∧ u.slack = some sl ∧ sl = ls - es ∧ 0 ≤ sl ∧
    u.isCritical = some (decide (1000 * sl.natAbs < 1)) ∧
    u.start = some es ∧ u.endT = some (es + u.duration)

theorem slackPass_spec {l : List Task}
    (h : ∀ u ∈ l, FwdProp l u ∧ BwdProp u) :
    (Pert.calculateSlackAndCriticalPath l).map Task.core = l.map Task.core ∧
    ∀ u' ∈ Pert.calculateSlackAndCriticalPath l, FinalProp u' := by
  unfold Pert.calculateSlackAndCriticalPath
  constructor
  · rw [List.map_map]
    rfl
  · intro u' hu'
    obtain ⟨u, hu, rfl⟩ := List.mem_map.mp hu'
    obtain ⟨⟨es, hes, hef, _⟩, ⟨lf, hlf, hls, hbd⟩⟩ := h u hu
    rw [hef, jsOr_some_zero] at hbd
    refine ⟨es, lf - u.duration, lf, (lf - u.duration) - es,
      hes, hef, hls, hlf, rfl, ?_, ?_, by omega, ?_, hes, hef⟩
    · show some (jsOr u.latestStart 0 - jsOr u.earliestStart 0) = _
      rw [hls, hes, jsOr_some_zero, jsOr_some_zero]
    · rfl
    · show some (decide (1000 * (jsOr (some (jsOr u.latestStart 0 - jsOr u.earliestStart 0)) 0).natAbs < 1)) = _
      rw [hls, hes, jsOr_some_zero, jsOr_some_zero, jsOr_some_zero]

/-- The central structural theorem about `calculatePertData` on valid
input: it succeeds; the returned tasks carry the input's `id`, `name`,
`duration` and `predecessors` (as a permutation of the input), have
pairwise-distinct ids, are topologically ordered; the critical path is the
ids of the critical tasks in that order; and every task satisfies the CPM
identities with non-negative slack. -/
theorem calculatePertData_spec {tasks : List Task} (h : ValidInput tasks) :
    ∃ d : DiagramData, Pert.calculatePertData tasks = .ok d ∧
      (d.tasks.map Task.core).Perm (tasks.map Task.core) ∧
      (d.tasks.map (·.id)).Nodup ∧ PredsClosed [] d.tasks ∧
      d.criticalPath =
        (d.tasks.filter (fun t => t.isCritical == some true)).map (·.id) ∧
      (∀ u ∈ d.tasks, FinalProp u) := by
  obtain ⟨sorted, hsort, hperm, hnd, htopo⟩ := topologicalSortCorrect_ok h
  obtain ⟨hFcore, hFprop⟩ := forwardGo_spec sorted [] (by simpa using hnd)
    (by simpa using htopo) (by intro u hu; cases hu)
  rw [List.nil_append] at hFcore
  have hFc : (Pert.calculateForwardPass sorted).map Task.core =
      sorted.map Task.core := hFcore
  have hFnd : ((Pert.calculateForwardPass sorted).map (·.id)).Nodup := by
    rw [map_id_of_map_core hFc]
    exact hnd
  have hFtopo : PredsClosed [] (Pert.calculateForwardPass sorted) :=
    predsClosed_of_gkeys (map_gkey_of_map_core hFc.symm) htopo
  have hFprop' : ∀ u ∈ Pert.calculateForwardPass sorted,
      FwdProp (Pert.calculateForwardPass sorted) u := hFprop
  -- the backward pass
  have hrev : ((Pert.calculateForwardPass sorted).reverse.reverse ++
      ([] : List Task)) = Pert.calculateForwardPass sorted := by simp
  obtain ⟨hBkey, hBprop⟩ := backwardGo_spec
    (jsMax ((Pert.calculateForwardPass sorted).map (fun t => jsOr t.earliestFinish 0)))
    (Pert.succsOf (Pert.calculateForwardPass sorted))
    (Pert.calculateForwardPass sorted).reverse []
    (by rw [hrev]; exact hFnd)
    (by rw [hrev]; exact hFtopo)
    (by rw [hrev]; exact hFprop')
    (by
      rw [hrev]
      intro u hu
      exact le_jsMax_of_mem (List.mem_map_of_mem _ hu))
    (by
      rw [hrev]
      intro i j
      exact mem_succsOf)
    (by intro u hu; cases hu)
  rw [hrev] at hBkey
  have hBeq : Pert.calculateBackwardPass (Pert.calculateForwardPass sorted) =
      Pert.backwardGo
        (jsMax ((Pert.calculateForwardPass sorted).map (fun t => jsOr t.earliestFinish 0)))
        (Pert.succsOf (Pert.calculateForwardPass sorted))
        (Pert.calculateForwardPass sorted).reverse [] := rfl
  rw [← hBeq] at hBkey hBprop
  have hBfwd : ∀ u ∈ Pert.calculateBackwardPass (Pert.calculateForwardPass sorted),
      FwdProp (Pert.calculateBackwardPass (Pert.calculateForwardPass sorted)) u :=
    hfwd_transfer hBkey.symm hFprop'
  obtain ⟨hScore, hSprop⟩ :=
    @slackPass_spec (Pert.calculateBackwardPass (Pert.calculateForwardPass sorted))
      (fun u hu => ⟨hBfwd u hu, hBprop u hu⟩)
  have hScore' : (Pert.calculateSlackAndCriticalPath
      (Pert.calculateBackwardPass (Pert.calculateForwardPass sorted))).map Task.core =
      sorted.map Task.core := by
    rw [hScore, map_core_of_map_bwdKey hBkey, hFc]
  refine ⟨⟨Pert.calculateSlackAndCriticalPath
      (Pert.calculateBackwardPass (Pert.calculateForwardPass sorted)),
    ((Pert.calculateSlackAndCriticalPath
      (Pert.calculateBackwardPass (Pert.calculateForwardPass sorted))).filter
        (fun t => t.isCritical == some true)).map (·.id),
    jsMax ((Pert.calculateSlackAndCriticalPath
      (Pert.calculateBackwardPass (Pert.calculateForwardPass sorted))).map
        (fun t => jsOr t.earliestFinish 0))⟩, ?_, ?_, ?_, ?_, rfl, hSprop⟩
  · simp only [Pert.calculatePertData, hsort]
  · rw [hScore']
    exact hperm.map Task.core
  · rw [map_id_of_map_core hScore']
    exact hnd
  · exact predsClosed_of_gkeys (map_gkey_of_map_core hScore'.symm) htopo

/-! ## Concrete inputs used by the claims -/

/-- Scenario 2 of the specification: the diamond `A → {B, D} → E`. -/
def diamondTasks : List Task :=
  [ { id := "A", name := "Analyse", duration := 5, predecessors := [] },
    { id := "B", name := "Conception", duration := 7, predecessors := ["A"] },
    { id := "D", name := "Backend", duration := 12, predecessors := ["A"] },
    { id := "E", name := "Integration", duration := 6, predecessors := ["B", "D"] } ]

/-- A two-task chain, used to witness the universally quantified claims. -/
def chainTasks : List Task :=
  [ { id := "A", name := "a", duration := 2, predecessors := [] },
    { id := "B", name := "b", duration := 3, predecessors := ["A"] } ]

/-- The cycle pair of the specification: A depends on B and B on A. -/
def cycleTasks : List Task :=
  [ { id := "A", name := "a", duration := 3, predecessors := ["B"] },
    { id := "B", name := "b", duration := 4, predecessors := ["A"] } ]

/-- Two parallel critical chains `P(10) → Q(1)` and `R(1) → S(10)`, both of
length 11: all four tasks are critical, and Kahn's queue interleaves the
chains. -/
def parallelTasks : List Task :=
  [ { id := "P", name := "p", duration := 10, predecessors := [] },
    { id := "R", name := "r", duration := 1, predecessors := [] },
    { id := "Q", name := "q", duration := 1, predecessors := ["P"] },
    { id := "S", name := "s", duration := 10, predecessors := ["R"] } ]

/-- Scenario 4 of the specification: a zero-duration milestone after A. -/
def milestoneTasks : List Task :=
  [ { id := "A", name := "a", duration := 5, predecessors := [] },
    { id := "M", name := "m", duration := 0, predecessors := ["A"] } ]

/-- A single five-day task, for observing in-place mutation. -/
def soloTask : Task := { id := "A", name := "a", duration := 5, predecessors := [] }

/-- A task listing a predecessor id that no task carries. -/
def ghostTasks : List Task :=
  [ { id := "X", name := "x", duration := 2, predecessors := ["GHOST"] } ]

/-! ## Result-projection helpers -/

/-- A computed field of the task with id `i` in the result of the final
`calculatePertData`, or `none` if the computation failed or `i` is absent. -/
def pertField (tasks : List Task) (i : String) (f : Task → Option Int) : Option Int :=
  ((Pert.calculatePertData tasks).toOption.bind (fun d => taskIn d i)).bind f

/-- The `isCritical` flag of the task with id `i` in the result. -/
def pertCritical (tasks : List Task) (i : String) : Option Bool :=
  ((Pert.calculatePertData tasks).toOption.bind (fun d => taskIn d i)).bind (·.isCritical)

/-- The critical path of the result. -/
def pertCriticalPath (tasks : List Task) : Option (List String) :=
  (Pert.calculatePertData tasks).toOption.map (·.criticalPath)

/-- The project duration of the result. -/
def pertDuration (tasks : List Task) : Option Int :=
  (Pert.calculatePertData tasks).toOption.map (·.projectDuration)

/-! ## Claims -/

/-- C1: on the diamond input A(5), B(7,[A]), D(12,[A]), E(6,[B,D]), the PERT
computation of `src/lib/pert.ts` yields B.earliestStart = 5,
B.earliestFinish = 12, D.earliestStart = 5, D.earliestFinish = 17,
E.earliestStart = 17, E.earliestFinish = 23; B has slack 5 and is not
critical, D has slack 0 and is critical; the project duration is 23; and
the critical path is exactly `[A, D, E]` — it contains A, D and E and not
B. -/
theorem claim_C1_diamond :
    pertField diamondTasks "B" Task.earliestStart = some 5 ∧
    pertField diamondTasks "B" Task.earliestFinish = some 12 ∧
    pertField diamondTasks "D" Task.earliestStart = some 5 ∧
    pertField diamondTasks "D" Task.earliestFinish = some 17 ∧
    pertField diamondTasks "E" Task.earliestStart = some 17 ∧
    pertField diamondTasks "E" Task.earliestFinish = some 23 ∧
    pertField diamondTasks "B" Task.slack = some 5 ∧
    pertCritical diamondTasks "B" = some false ∧
    pertField diamondTasks "D" Task.slack = some 0 ∧
    pertCritical diamondTasks "D" = some true ∧
    pertDuration diamondTasks = some 23 ∧
    pertCriticalPath diamondTasks = some ["A", "D", "E"] := by
  decide

/-- C4: on the two-task cycle (A lists B as predecessor and B lists A),
the refactored pipeline's validation/sorting stage fails with a cycle error
that carries both task ids of the cycle — the shape validator finds nothing
wrong, the sorter throws `Cycle détecté dans les dépendances: A, B` — so no
scheduling output is produced; the final `pert.ts` pipeline and the
`utils.ts` validator also reject the input. -/
theorem claim_C4_cycle_rejected :
    PertR.calculatePertData cycleTasks = .error (.cycle ["A", "B"]) ∧
    PertR.validateTasks cycleTasks = [] ∧
    Pert.calculatePertData cycleTasks =
      .error "Cycle detecte dans les dependances des taches" ∧
    (Utils.validateTasks cycleTasks).valid = false := by
  decide

/-- C7 counterexample: the validators cited by the claim do NOT accept a
zero-duration task — `utils.validateTasks` rejects A(5), M(0,[A]) with the
duration error (`duration <= 0` is invalid), so "validation accepts the
task set" is false. -/
theorem claim_C7_counterexample :
    ¬ ((Utils.validateTasks milestoneTasks).valid = true) := by
  decide

/-- C7 amended: a task with duration 0 is rejected by the validators
(`duration` must be strictly positive: utils.ts line 124, refactored
pert.ts line 436); the scheduling computation itself (the final
`calculatePertData`, which performs no validation) handles the milestone
without breakage: M.earliestStart = M.earliestFinish = 5 and M's slack is 0
by the normal formula. -/
theorem claim_C7_amended :
    (Utils.validateTasks milestoneTasks).valid = false ∧
    (Utils.validateTasks milestoneTasks).errors = [.badDuration "M"] ∧
    PertR.validateTasks milestoneTasks = [.badDuration "M"] ∧
    pertField milestoneTasks "M" Task.earliestStart = some 5 ∧
    pertField milestoneTasks "M" Task.earliestFinish = some 5 ∧
    pertField milestoneTasks "M" Task.slack = some 0 := by
  decide

/-- C8 counterexample: on two parallel critical chains P(10) → Q(1) and
R(1) → S(10) the returned critical path is `[P, R, Q, S]` (the Kahn order),
with Q.earliestStart = 10 listed before S.earliestStart = 1 — the sequence
is not sorted by `earliestStart` ascending, let alone id-tie-broken. -/
theorem claim_C8_counterexample :
    pertCriticalPath parallelTasks = some ["P", "R", "Q", "S"] ∧
    pertField parallelTasks "Q" Task.earliestStart = some 10 ∧
    pertField parallelTasks "S" Task.earliestStart = some 1 ∧
    (Pert.calculatePertData parallelTasks).toOption.map
      (fun d => decide (specCriticalPathOrdered d)) = some false := by
  decide

/-- C9 counterexample: the refactored `calculatePertData` (pert.ts line
299) hands the caller's array straight to `PertCalculator` and the passes
write the computed fields into the caller's own task objects: after the
call on `[soloTask]` the caller's object carries `earliestStart = 0`
(before the call it had none), so the input is not treated as immutable. -/
theorem claim_C9_counterexample :
    PertR.callerTasksAfter [soloTask] ≠ [soloTask] ∧
    (PertR.callerTasksAfter [soloTask]).map Task.earliestStart = [some 0] ∧
    [soloTask].map Task.earliestStart = [none] := by
  decide

/-- C9 amended: the deep-copying entry points — `calculatePertData` of the
final `src/lib/pert.ts` (line 947) and `calculateGanttData` of
`src/lib/gantt.ts` (line 10) — leave the caller's task objects exactly as
they were and retain no state across calls (each call computes on its own
copy); the refactored `calculatePertData`, however, writes the computed
scheduling fields into the caller's objects. -/
theorem claim_C9_amended :
    (∀ tasks : List Task, callerTasksAfterPert tasks = tasks) ∧
    (∀ tasks : List Task, callerTasksAfterGantt tasks = tasks) ∧
    (PertR.callerTasksAfter [soloTask]).map Task.earliestStart = [some 0] ∧
    (PertR.callerTasksAfter [soloTask]).map Task.slack = [some 0] := by
  refine ⟨fun _ => rfl, fun _ => rfl, ?_, ?_⟩ <;> decide

/-- C2: for every valid (acyclic, referentially sound, non-empty) input,
`calculatePertData` succeeds and every task of the result satisfies
`earliestFinish - earliestStart = duration`,
`latestFinish - latestStart = duration`, and
`latestStart - earliestStart = latestFinish - earliestFinish = slack`. -/
theorem claim_C2_invariants {tasks : List Task} (h : ValidInput tasks) :
    ∃ d, Pert.calculatePertData tasks = .ok d ∧
      ∀ u ∈ d.tasks, ∃ es ef ls lf sl : Int,
        u.earliestStart = some es ∧ u.earliestFinish = some ef ∧
        u.latestStart = some ls ∧ u.latestFinish = some lf ∧ u.slack = some sl ∧
        ef - es = u.duration ∧ lf - ls = u.duration ∧
        ls - es = sl ∧ lf - ef = sl := by
  obtain ⟨d, hok, _, _, _, _, hfin⟩ := calculatePertData_spec h
  refine ⟨d, hok, ?_⟩
  intro u hu
  obtain ⟨es, ls, lf, sl, h1, h2, h3, h4, h5, h6, h7, _, _, _, _⟩ := hfin u hu
  exact ⟨es, es + u.duration, ls, lf, sl, h1, h2, h3, h4, h6,
    by omega, by omega, by omega, by omega⟩

/-- Witness for C2 on the two-task chain. -/
theorem claim_C2_invariants_witness :
    ValidInput chainTasks ∧
    ∃ d, Pert.calculatePertData chainTasks = .ok d ∧
      ∀ u ∈ d.tasks, ∃ es ef ls lf sl : Int,
        u.earliestStart = some es ∧ u.earliestFinish = some ef ∧
        u.latestStart = some ls ∧ u.latestFinish = some lf ∧ u.slack = some sl ∧
        ef - es = u.duration ∧ lf - ls = u.duration ∧
        ls - es = sl ∧ lf - ef = sl :=
  ⟨⟨by decide, by decide, by decide, ⟨chainTasks, List.Perm.refl _, by decide⟩⟩,
   claim_C2_invariants
    ⟨by decide, by decide, by decide, ⟨chainTasks, List.Perm.refl _, by decide⟩⟩⟩

/-- C3: for every valid input (integer durations are built into the model),
every task of the result has `isCritical = true` exactly when its slack is
`0`: the code's comparison `Math.abs(slack) < 0.001` is exact on the
integer-valued slack. -/
theorem claim_C3_critical_iff_zero_slack {tasks : List Task} (h : ValidInput tasks) :
    ∃ d, Pert.calculatePertData tasks = .ok d ∧
      ∀ u ∈ d.tasks, (u.isCritical = some true ↔ u.slack = some 0) := by
  obtain ⟨d, hok, _, _, _, _, hfin⟩ := calculatePertData_spec h
  refine ⟨d, hok, ?_⟩
  intro u hu
  obtain ⟨es, ls, lf, sl, _, _, _, _, _, h6, _, _, h9, _, _⟩ := hfin u hu
  rw [h6, h9]
  simp only [Option.some.injEq, decide_eq_true_eq]
  omega

/-- Witness for C3 on the two-task chain. -/
theorem claim_C3_witness :
    ValidInput chainTasks ∧
    ∃ d, Pert.calculatePertData chainTasks = .ok d ∧
      ∀ u ∈ d.tasks, (u.isCritical = some true ↔ u.slack = some 0) :=
  ⟨⟨by decide, by decide, by decide, ⟨chainTasks, List.Perm.refl _, by decide⟩⟩,
   claim_C3_critical_iff_zero_slack
    ⟨by decide, by decide, by decide, ⟨chainTasks, List.Perm.refl _, by decide⟩⟩⟩

/-- C6: for every valid input, every task of the result has
slack ≥ 0. -/
theorem claim_C6_no_negative_slack {tasks : List Task} (h : ValidInput tasks) :
    ∃ d, Pert.calculatePertData tasks = .ok d ∧
      ∀ u ∈ d.tasks, ∃ sl : Int, u.slack = some sl ∧ 0 ≤ sl := by
  obtain ⟨d, hok, _, _, _, _, hfin⟩ := calculatePertData_spec h
  refine ⟨d, hok, ?_⟩
  intro u hu
  obtain ⟨es, ls, lf, sl, _, _, _, _, _, h6, _, h8, _, _, _⟩ := hfin u hu
  exact ⟨sl, h6, h8⟩

/-- Witness for C6 on the two-task chain. -/
theorem claim_C6_witness :
    ValidInput chainTasks ∧
    ∃ d, Pert.calculatePertData chainTasks = .ok d ∧
      ∀ u ∈ d.tasks, ∃ sl : Int, u.slack = some sl ∧ 0 ≤ sl :=
  ⟨⟨by decide, by decide, by decide, ⟨chainTasks, List.Perm.refl _, by decide⟩⟩,
   claim_C6_no_negative_slack
    ⟨by decide, by decide, by decide, ⟨chainTasks, List.Perm.refl _, by decide⟩⟩⟩

/-- C8 amended: for every valid input the returned `criticalPath` is the
ids of the zero-slack tasks, each exactly once (it is duplicate-free and an
id is listed iff its task is critical), in the order of the topologically
sorted result list — a sublist of the result's id sequence — rather than
re-sorted by `earliestStart` with id tie-breaks; being a pure function of
the input, it is deterministic. -/
theorem claim_C8_amended {tasks : List Task} (h : ValidInput tasks) :
    ∃ d, Pert.calculatePertData tasks = .ok d ∧
      d.criticalPath =
        (d.tasks.filter (fun t => t.isCritical == some true)).map (·.id) ∧
      d.criticalPath.Nodup ∧
      d.criticalPath.Sublist (d.tasks.map (·.id)) ∧
      (∀ i, i ∈ d.criticalPath ↔
        ∃ u ∈ d.tasks, u.id = i ∧ u.isCritical = some true) := by
  obtain ⟨d, hok, _, hnd, _, hpath, _⟩ := calculatePertData_spec h
  have hsub : d.criticalPath.Sublist (d.tasks.map (·.id)) := by
    rw [hpath]
    exact (List.filter_sublist _).map _
  refine ⟨d, hok, hpath, hnd.sublist hsub, hsub, ?_⟩
  intro i
  rw [hpath]
  constructor
  · intro hi
    obtain ⟨u, hu, rfl⟩ := List.mem_map.mp hi
    have := List.mem_filter.mp hu
    exact ⟨u, this.1, rfl, by simpa using this.2⟩
  · rintro ⟨u, hu, rfl, hcrit⟩
    exact List.mem_map_of_mem _ (List.mem_filter.mpr ⟨hu, by simp [hcrit]⟩)

/-- Witness for the amended C8 on the two-task chain. -/
theorem claim_C8_amended_witness :
    ValidInput chainTasks ∧
    ∃ d, Pert.calculatePertData chainTasks = .ok d ∧
      d.criticalPath =
        (d.tasks.filter (fun t => t.isCritical == some true)).map (·.id) ∧
      d.criticalPath.Nodup ∧
      d.criticalPath.Sublist (d.tasks.map (·.id)) ∧
      (∀ i, i ∈ d.criticalPath ↔
        ∃ u ∈ d.tasks, u.id = i ∧ u.isCritical = some true) :=
  ⟨⟨by decide, by decide, by decide, ⟨chainTasks, List.Perm.refl _, by decide⟩⟩,
   claim_C8_amended
    ⟨by decide, by decide, by decide, ⟨chainTasks, List.Perm.refl _, by decide⟩⟩⟩

/-- C10: for every valid input, `calculatePertData` succeeds and its task
list carries exactly the input's tasks — the lists of (id, name, duration,
predecessors) records are permutations of one another and every input id
occurs exactly once — arranged topologically (`PredsClosed [] d.tasks`:
every task appears after all of its predecessors); the list order is the
topological order produced by Kahn's algorithm, not necessarily the input
order. -/
theorem claim_C10_topological_permutation {tasks : List Task} (h : ValidInput tasks) :
    ∃ d, Pert.calculatePertData tasks = .ok d ∧
      (d.tasks.map Task.core).Perm (tasks.map Task.core) ∧
      (∀ t ∈ tasks, (d.tasks.map (·.id)).count t.id = 1) ∧
      PredsClosed [] d.tasks := by
  obtain ⟨d, hok, hperm, _, htopo, _, _⟩ := calculatePertData_spec h
  refine ⟨d, hok, hperm, ?_, htopo⟩
  intro t ht
  have hidperm : (d.tasks.map (·.id)).Perm (tasks.map (·.id)) := by
    have := hperm.map TaskCore.id
    simpa [List.map_map, Function.comp, Task.core] using this
  rw [hidperm.count_eq]
  exact List.count_eq_one_of_mem h.2.1 (List.mem_map_of_mem _ ht)

/-- Witness for C10 on the two-task chain. -/
theorem claim_C10_witness :
    ValidInput chainTasks ∧
    ∃ d, Pert.calculatePertData chainTasks = .ok d ∧
      (d.tasks.map Task.core).Perm (chainTasks.map Task.core) ∧
      (∀ t ∈ chainTasks, (d.tasks.map (·.id)).count t.id = 1) ∧
      PredsClosed [] d.tasks :=
  ⟨⟨by decide, by decide, by decide, ⟨chainTasks, List.Perm.refl _, by decide⟩⟩,
   claim_C10_topological_permutation
    ⟨by decide, by decide, by decide, ⟨chainTasks, List.Perm.refl _, by decide⟩⟩⟩

theorem mem_seenIds : ∀ (l : List Task) (acc : List String) (i : String),
    i ∈ seenIds l acc → i ∈ acc ∨ i ∈ l.map (·.id) := by
  intro l
  induction l with
  | nil =>
    intro acc i hi
    exact Or.inl (by simpa [seenIds] using hi)
  | cons t rest ih =>
    intro acc i hi
    rw [show seenIds (t :: rest) acc = seenIds rest
      (if t.id = "" then acc
       else if acc.contains t.id then acc else acc ++ [t.id]) from rfl] at hi
    rcases ih _ i hi with hacc | hrest
    · by_cases h1 : t.id = ""
      · rw [if_pos h1] at hacc
        exact Or.inl hacc
      · rw [if_neg h1] at hacc
        by_cases h2 : acc.contains t.id
        · rw [if_pos h2] at hacc
          exact Or.inl hacc
        · rw [if_neg h2] at hacc
          rcases List.mem_append.mp hacc with h' | h'
          · exact Or.inl h'
          · rcases List.mem_singleton.mp h'
            exact Or.inr (by simp)
    · exact Or.inr (by simp [hrest])

/-- C5: whenever some task lists a predecessor id that no task of the set
carries, the validator of `src/lib/utils.ts` — the validation the
application runs before computing any diagram, returning early on failure —
reports the input invalid. -/
theorem claim_C5_dangling_rejected {tasks : List Task}
    (h : ∃ t ∈ tasks, ∃ p ∈ t.predecessors, p ∉ tasks.map (·.id)) :
    (Utils.validateTasks tasks).valid = false := by
  obtain ⟨t, ht, p, hp, hnp⟩ := h
  have hne : tasks.isEmpty = false := by
    cases tasks with
    | nil => cases ht
    | cons a l => rfl
  have hpnotseen : ¬ (seenIds tasks []).contains p = true := by
    intro hc
    rw [List.contains_iff_exists_mem_beq] at hc
    obtain ⟨a, ha, hab⟩ := hc
    rw [beq_iff_eq] at hab
    subst hab
    rcases mem_seenIds tasks [] p ha with h' | h'
    · cases h'
    · exact hnp h'
  have hmem : VErr.dangling t.id p ∈ tasks.flatMap (fun t =>
      t.predecessors.flatMap (fun p =>
        (if (seenIds tasks []).contains p then [] else [VErr.dangling t.id p]) ++
        (if p == t.id then [VErr.selfRef t.id] else []))) := by
    refine List.mem_flatMap.mpr ⟨t, ht, ?_⟩
    refine List.mem_flatMap.mpr ⟨p, hp, ?_⟩
    rw [if_neg hpnotseen]
    exact List.mem_append.mpr (Or.inl (List.mem_singleton.mpr rfl))
  have herr : VErr.dangling t.id p ∈
      structuralErrs tasks 0 [] ++ tasks.flatMap (fun t =>
        t.predecessors.flatMap (fun p =>
          (if (seenIds tasks []).contains p then [] else [VErr.dangling t.id p]) ++
          (if p == t.id then [VErr.selfRef t.id] else []))) :=
    List.mem_append.mpr (Or.inr hmem)
  have hfull : ¬ (structuralErrs tasks 0 [] ++ tasks.flatMap (fun t =>
      t.predecessors.flatMap (fun p =>
        (if (seenIds tasks []).contains p then [] else [VErr.dangling t.id p]) ++
        (if p == t.id then [VErr.selfRef t.id] else [])))).isEmpty = true := by
    intro hb
    rw [List.isEmpty_iff] at hb
    rw [hb] at herr
    cases herr
  simp only [Utils.validateTasks, hne, Bool.false_eq_true, if_false]
  rw [if_neg hfull]
  exact Bool.eq_false_iff.mpr hfull

/-- Witness for C5 on a task whose predecessor id matches no task. -/
theorem claim_C5_witness :
    (∃ t ∈ ghostTasks, ∃ p ∈ t.predecessors, p ∉ ghostTasks.map (·.id)) ∧
    (Utils.validateTasks ghostTasks).valid = false :=
  ⟨by decide, claim_C5_dangling_rejected (by decide)⟩

end GanttPert
